import Mathlib

/-!
# Verification of the jumpgen reactive filesystem engine core

This file is a shallow embedding, in Lean 4, of the dependency-tracking and
watch-coordination core of the `jumpgen` code-generation engine:

* the watch registry (`createJumpgenWatcher` in `src/util/watcher.ts`):
  `watchedFiles`, `blamedFiles`, `criticalFiles`, `missingPaths`,
  `fallbackPaths`, the matcher array, `addFile`, `add`, `unwatch`,
  `shouldIgnoreAdd`, `shouldIgnoreChange`, `handleChange`;
* the existence watcher (`createExistenceWatcher`): the three existence
  path sets and `isRelevantChange`;
* the change-log fold performed by the `context.events.on('watch')` handler
  in `src/api.ts`;
* the reset decision (`reset` in `src/context.ts`) and the content-skipping
  `write` method of the filesystem facade.

JavaScript `Set` objects are modelled as duplicate-free `List String` in
insertion order, and `Map` objects as association lists (`List (String × α)`)
in insertion order; `Map.set` on an existing key overwrites in place,
preserving order, exactly as in JS.  External collaborators (chokidar
subscriptions, `picomatch` compilation, the real filesystem) are passed in as
explicit function parameters where the registry consults them.  Path
utilities (`path.resolve`, `path.relative`, `path.dirname`, …) are modelled
for the normal case of `/`-separated absolute roots.
-/

namespace Jumpgen

/-- The raw event kinds reported by the filesystem watcher
(`ChokidarEvent` in `events.ts`). -/
inductive ChokidarEvent
  | add
  | addDir
  | change
  | unlink
  | unlinkDir
deriving DecidableEq, Repr

/-- The folded event kinds stored in the change log
(`FileChange['event']` in `context.ts`). -/
inductive ChangeEvent
  | add
  | change
  | unlink
deriving DecidableEq, Repr

/-- One entry of the change log (`FileChange` in `context.ts`): the folded
event together with the root-relative path. -/
structure FileChange where
  event : ChangeEvent
  file : String
deriving DecidableEq, Repr

/-! ## JS `Set` / `Map` primitives on ordered lists -/

/-- `Set.add`: append the element unless already present (JS sets keep the
first insertion position). -/
def insertSet (x : String) (l : List String) : List String :=
  if x ∈ l then l else l ++ [x]

/-- `Map.get`: the value of the first entry with the given key. -/
def lookupKey {α : Type} (k : String) : List (String × α) → Option α
  | [] => none
  | e :: rest => if e.1 = k then some e.2 else lookupKey k rest

/-- `Map.set`: overwrite the entry in place if the key is present, otherwise
append a new entry. -/
def setEntry {α : Type} (k : String) (v : α) (m : List (String × α)) :
    List (String × α) :=
  if (lookupKey k m).isSome then
    m.map fun e => if e.1 = k then (k, v) else e
  else
    m ++ [(k, v)]

/-- `Map.delete`: remove every entry with the given key. -/
def eraseEntry {α : Type} (k : String) (m : List (String × α)) :
    List (String × α) :=
  m.filter fun e => e.1 ≠ k

/-- The keys of a map, in order. -/
def keysOf {α : Type} (m : List (String × α)) : List String :=
  m.map Prod.fst

/-! ## Path utilities (`util/path.ts` and `node:path`, simplified to
`/`-separated paths) -/

/-- `s.startsWith pre`, computed on the underlying character lists (the
built-in uses substring primitives that the kernel cannot evaluate). -/
def strStartsWith (s pre : String) : Bool :=
  pre.data.isPrefixOf s.data

/-- `s.endsWith suf`, computed on the underlying character lists. -/
def strEndsWith (s suf : String) : Bool :=
  suf.data.isSuffixOf s.data

/-- Split a character list at every occurrence of a separator. -/
def splitChars (sep : Char) : List Char → List (List Char)
  | [] => [[]]
  | c :: rest =>
    match splitChars sep rest with
    | [] => [[]]
    | g :: gs => if c = sep then [] :: g :: gs else (c :: g) :: gs

/-- The `/`-separated segments of a path (`p.split(sep)`). -/
def pathSegments (p : String) : List String :=
  (splitChars '/' p.data).map fun l => String.mk l

/-- Rejoin path segments with `/`. -/
def joinSegments : List String → String
  | [] => ""
  | [x] => x
  | x :: rest => x ++ "/" ++ joinSegments rest

/-- `stripTrailingSlash` from `util/path.ts`. -/
def stripTrailingSlash (p : String) : String :=
  if strEndsWith p "/" then p.dropRight 1 else p

/-- `path.resolve(root, p)` for an absolute `root`: an absolute `p` wins,
otherwise `p` is appended to `root`. -/
def pathResolve (root p : String) : String :=
  if strStartsWith p "/" then p
  else if p = "" then stripTrailingSlash root
  else stripTrailingSlash root ++ "/" ++ p

/-- `path.relative(root, p)` for the common case used by the change log:
strip the `root ++ "/"` prefix. -/
def pathRelative (root p : String) : String :=
  if strStartsWith p (stripTrailingSlash root ++ "/") then
    p.drop ((stripTrailingSlash root).length + 1)
  else p

/-- `path.dirname`: drop the last `/`-separated segment. -/
def pathDirname (p : String) : String :=
  match (pathSegments p).dropLast with
  | [] => p
  | [""] => "/"
  | segs => joinSegments segs

/-- `path.join(dir, glob)` as used by the reset logic. -/
def pathJoin (dir p : String) : String :=
  stripTrailingSlash dir ++ "/" ++ p

/-- All ancestors of a directory created by `mkdirSync(dir, {recursive:
true})`, outermost first: e.g. `"/a/b"` yields `["/a", "/a/b"]`. -/
def parentChain (dir : String) : List String :=
  let segs := pathSegments dir
  (List.range segs.length).filterMap fun i =>
    if i = 0 then none
    else some (joinSegments (segs.take (i + 1)))

/-! ## Matchers and the watch registry state (`util/watcher.ts`) -/

/-- A compiled glob matcher (`Matcher` in `util/watcher.ts`).  The compiled
`picomatch` predicate is stored as a plain function, produced externally. -/
structure Matcher where
  base : String
  glob : String
  depth : Nat
  ignoreEmptyNewFiles : Bool
  ignoreChangeEvents : Bool
  matchPred : String → Bool

/-- `hasMatch` from `createJumpgenWatcher`: a matcher applies to a file when
its predicate accepts the file or the file equals the matcher's base. -/
def hasMatch (file : String) (matcher : Matcher) : Bool :=
  matcher.matchPred file || file == matcher.base

/-- The mutable state owned by `createJumpgenWatcher`, including the three
lazily created path sets of its existence watcher (`undefined` sets behave
exactly like empty sets in every read, so they are modelled as `[]`). -/
structure WatcherState where
  watchedFiles : List String
  blamedFiles : List (String × List String)
  criticalFiles : List String
  missingPaths : List String
  fallbackPaths : List (String × Nat)
  matchers : List Matcher
  existencePaths : List String
  fileExistencePaths : List String
  dirExistencePaths : List String

/-- The state of a freshly created watch registry: every collection empty. -/
def freshWatcher : WatcherState :=
  ⟨[], [], [], [], [], [], [], [], []⟩

/-- The registry bookkeeping of the internal `watch` helper: when the path
does not exist (per the ambient filesystem `ex`), record it in
`missingPaths` and reference-count its ancestor chain in `fallbackPaths`.
The chokidar subscription itself is an external effect.  The recursion walks
`pathDirname` until it reaches a fixpoint; the fuel `file.length + 1`
bounds the ancestor chain of any concrete path. -/
def watchPath (ex : String → Bool) : Nat → String → WatcherState → WatcherState
  | 0, _, s => s
  | fuel + 1, file, s =>
    if ex file then s
    else
      let s := { s with missingPaths := insertSet file s.missingPaths }
      let fallbackPath := pathDirname file
      if fallbackPath ≠ file then
        let childCount := (lookupKey fallbackPath s.fallbackPaths).getD 0
        let s := { s with
          fallbackPaths := setEntry fallbackPath (childCount + 1) s.fallbackPaths }
        watchPath ex fuel fallbackPath s
      else s

/-- `watch(file)` entry point with enough fuel for any ancestor chain. -/
def watchPathTop (ex : String → Bool) (file : String) (s : WatcherState) :
    WatcherState :=
  watchPath ex (file.length + 1) file s

/-- `checkAddedPath`: on an observed `add`, drop the path from
`missingPaths` and decrement (or release) its parent's fallback counter. -/
def checkAddedPath (file : String) (s : WatcherState) : WatcherState :=
  if file ∈ s.missingPaths then
    let s := { s with missingPaths := s.missingPaths.erase file }
    let parent := pathDirname file
    let childCount := (lookupKey parent s.fallbackPaths).getD 0
    if 0 < childCount then
      if childCount = 1 then
        { s with fallbackPaths := eraseEntry parent s.fallbackPaths }
      else
        { s with fallbackPaths := setEntry parent (childCount - 1) s.fallbackPaths }
    else s
  else s

/-- `shouldIgnoreAdd`'s matcher loop: return `false` as soon as a matcher
that cares about empty new files applies; otherwise remember (in `skip`)
whether some applicable matcher wants empty new files ignored and the file
is currently empty (`sz` is the ambient `statSync(file).size`). -/
def shouldIgnoreAddLoop (sz : String → Nat) (file : String) :
    List Matcher → Bool → Bool
  | [], skip => skip
  | matcher :: rest, skip =>
    if !matcher.ignoreEmptyNewFiles then
      if hasMatch file matcher then false
      else shouldIgnoreAddLoop sz file rest skip
    else if !skip && hasMatch file matcher && sz file == 0 then
      shouldIgnoreAddLoop sz file rest true
    else
      shouldIgnoreAddLoop sz file rest skip

/-- `shouldIgnoreAdd` from `createJumpgenWatcher`. -/
def shouldIgnoreAdd (sz : String → Nat) (s : WatcherState) (file : String) :
    Bool :=
  if file ∈ s.watchedFiles then false
  else shouldIgnoreAddLoop sz file s.matchers false

/-- `shouldIgnoreChange` from `createJumpgenWatcher`: a change to a file
that is not explicitly watched is ignored unless some applicable matcher
subscribed to change events. -/
def shouldIgnoreChange (s : WatcherState) (file : String) : Bool :=
  if file ∈ s.watchedFiles then false
  else s.matchers.all fun matcher =>
    matcher.ignoreChangeEvents || !hasMatch file matcher

/-- `handleChange` from `createJumpgenWatcher`: update the missing-path
bookkeeping on `add`/`addDir`, then either swallow the event per the two
filters or forward it (`events.emit('watch', …)`), returned as `some`. -/
def handleChange (sz : String → Nat) (event : ChokidarEvent) (file : String)
    (s : WatcherState) : WatcherState × Option (ChokidarEvent × String) :=
  let s :=
    if event = ChokidarEvent.add ∨ event = ChokidarEvent.addDir then
      checkAddedPath file s
    else s
  if event = ChokidarEvent.add ∧ shouldIgnoreAdd sz s file = true then
    (s, none)
  else if event = ChokidarEvent.change ∧ shouldIgnoreChange s file = true then
    (s, none)
  else
    (s, some (event, file))

/-- `isRelevantChange` of the existence watcher
(`createExistenceWatcher`). -/
def isRelevantChange (s : WatcherState) (event : ChokidarEvent)
    (file : String) : Bool :=
  if event = ChokidarEvent.change then false
  else if file ∈ s.watchedFiles then false
  else if file ∈ s.existencePaths then true
  else if event = ChokidarEvent.add ∨ event = ChokidarEvent.unlink then
    if file ∈ s.fileExistencePaths then true
    else !(file ∈ s.dirExistencePaths : Bool)
  else
    if file ∈ s.dirExistencePaths then true
    else !(file ∈ s.fileExistencePaths : Bool)

/-! ## `addFile`, `add` and `unwatch` (`util/watcher.ts`) -/

/-- `addFile(file, {cause?, critical?})`.  `cause = some cs` models a truthy
`cause` option with `castArray` already applied (a JS array is truthy even
when empty); `none` models an absent or falsy cause.  `ex` is the ambient
`existsSync` consulted by the internal `watch` helper. -/
def addFile (ex : String → Bool) (file : String)
    (cause : Option (List String)) (critical : Bool)
    (s : WatcherState) : WatcherState :=
  let causes? := lookupKey file s.blamedFiles
  let s :=
    match cause with
    | some cs =>
      match causes? with
      | none =>
        -- If the file was already watched without a cause, it is treated
        -- as a cause for itself.
        let seed := if file ∈ s.watchedFiles then [file] else []
        let causes := cs.foldl (fun acc c => insertSet c acc) seed
        { s with blamedFiles := setEntry file causes s.blamedFiles }
      | some causes =>
        let causes := cs.foldl (fun acc c => insertSet c acc) causes
        { s with blamedFiles := setEntry file causes s.blamedFiles }
    | none =>
      match causes? with
      | some causes =>
        -- A file already watched with a cause is re-added without one: the
        -- file becomes a cause for itself.
        { s with blamedFiles := setEntry file (insertSet file causes) s.blamedFiles }
      | none => s
  let s :=
    if critical then { s with criticalFiles := insertSet file s.criticalFiles }
    else s
  let s := { s with watchedFiles := insertSet file s.watchedFiles }
  watchPathTop ex file s

/-- The option bag taken by `add` (a `GlobOptions` extended with the two
event-interest flags). -/
structure AddOptions where
  cwd : Option String := none
  ignore : List String := []
  ignoreEmptyNewFiles : Bool := false
  enableChangeEvents : Bool := false

/-- Insert a matcher before the first existing matcher of strictly smaller
depth (`matchers.splice(index, 0, …)` after `findIndex(m => depth > m.depth)`),
so deeper matchers are matched first. -/
def insertByDepth (m : Matcher) : List Matcher → List Matcher
  | [] => [m]
  | x :: xs => if m.depth > x.depth then m :: x :: xs else x :: insertByDepth m xs

/-- `add(patterns, options)`.  The external `picomatch` library enters as two
parameters: `scanBase pattern = (base, glob, isGlobstar)` for
`picomatch.scan` and `compile pattern options` for the compiled predicate.
Negative patterns are folded into the `ignore` option; each positive pattern
becomes a matcher inserted by descending depth, and its base is handed to
the internal `watch` helper. -/
def add (ex : String → Bool) (scanBase : String → String × String × Bool)
    (compile : String → AddOptions → String → Bool) (root : String)
    (patterns : List String) (options : AddOptions)
    (s : WatcherState) : WatcherState :=
  let positivePatterns := patterns.filter fun p => !strStartsWith p "!"
  let negativePatterns :=
    (patterns.filter fun p => strStartsWith p "!").map fun p => p.drop 1
  let options :=
    if negativePatterns ≠ [] then
      { options with ignore := options.ignore ++ negativePatterns }
    else options
  let cwd :=
    (match options.cwd with
     | some c => stripTrailingSlash (pathResolve root c)
     | none => root) ++ "/"
  positivePatterns.foldl
    (fun s pattern =>
      let scanned := scanBase pattern
      let base := pathResolve cwd scanned.1
      let depth := (pathSegments base).length
      let compiled := compile pattern options
      let m : Matcher :=
        { base := base
          glob := scanned.2.1
          depth := depth
          ignoreEmptyNewFiles := options.ignoreEmptyNewFiles
          ignoreChangeEvents := !options.enableChangeEvents
          matchPred :=
            if strStartsWith pattern "/" then compiled
            else fun file => strStartsWith file cwd && compiled (file.drop cwd.length) }
      let s := { s with matchers := insertByDepth m s.matchers }
      watchPathTop ex base s)
    s

/-- The non-recursive half of `unwatch(file)`: remove the file from the
existence watcher's three sets (`existenceWatcher?.unwatch`) and from
`watchedFiles`, `blamedFiles` and `criticalFiles`.  (The conditional
`recursiveWatcher.unwatch` call only releases the chokidar subscription, an
external effect.) -/
def removeFilePaths (file : String) (s : WatcherState) : WatcherState :=
  { s with
    existencePaths := s.existencePaths.erase file
    fileExistencePaths := s.fileExistencePaths.erase file
    dirExistencePaths := s.dirExistencePaths.erase file
    watchedFiles := s.watchedFiles.erase file
    blamedFiles := eraseEntry file s.blamedFiles
    criticalFiles := s.criticalFiles.erase file }

/-- The blame-cascade loop of `unwatch`: iterate over the entries of the
live `blamedFiles` map (`ks` is the snapshot of its keys when the loop
starts; keys are never added during the cascade, and entries deleted by a
nested call are skipped by the `none` branch, so this is exactly the JS
`Map` live-iteration order).  For every entry whose causes contain `file`,
remove it; if the cause set becomes empty, recursively unwatch the entry's
key through `recurse`. -/
def unwatchLoop (recurse : String → WatcherState → Option WatcherState)
    (file : String) : List String → WatcherState → Option WatcherState
  | [], s => some s
  | q :: rest, s =>
    match lookupKey q s.blamedFiles with
    | none => unwatchLoop recurse file rest s
    | some causes =>
      if file ∈ causes then
        let causes' := causes.erase file
        let s' := { s with blamedFiles := setEntry q causes' s.blamedFiles }
        if causes' = [] then
          match recurse q s' with
          | none => none
          | some s'' => unwatchLoop recurse file rest s''
        else
          unwatchLoop recurse file rest s'
      else
        unwatchLoop recurse file rest s

/-- `unwatch(file)`, instrumented with a fuel that counts exactly the depth
of the recursive cascade; `none` means the fuel was exhausted. -/
def unwatchO : Nat → String → WatcherState → Option WatcherState
  | 0, _, _ => none
  | fuel + 1, file, s =>
    let s1 := removeFilePaths file s
    unwatchLoop (unwatchO fuel) file (keysOf s1.blamedFiles) s1

/-- `unwatch(file)`.  The fuel `|blamedFiles| + 1` always suffices (proved
below as the termination claim); `getD` is never exercised. -/
def unwatch (file : String) (s : WatcherState) : WatcherState :=
  (unwatchO (s.blamedFiles.length + 1) file s).getD s

/-- `isFileCritical(file)`. -/
def isFileCritical (s : WatcherState) (file : String) : Bool :=
  file ∈ s.criticalFiles

/-! ## The change-log fold (`context.events.on('watch')` handler in
`src/api.ts`) -/

/-- The event simplification performed by the watch handler: `addDir` and
`unlinkDir` collapse to `add` and `unlink`. -/
def normalizeEvent : ChokidarEvent → ChangeEvent
  | ChokidarEvent.add => ChangeEvent.add
  | ChokidarEvent.addDir => ChangeEvent.add
  | ChokidarEvent.change => ChangeEvent.change
  | ChokidarEvent.unlink => ChangeEvent.unlink
  | ChokidarEvent.unlinkDir => ChangeEvent.unlink

/-- One iteration of the handler's blame loop for a single affected key:
insert a fresh entry when the key is new; otherwise only a non-`change`
event overwrites the recorded event ("avoid overwriting `add` or `unlink`
with `change`"). -/
def applyChange (log : List (String × FileChange)) (key : String)
    (ev : ChangeEvent) (rel : String) : List (String × FileChange) :=
  match lookupKey key log with
  | none => log ++ [(key, ⟨ev, rel⟩)]
  | some lastChange =>
    if ev ≠ ChangeEvent.change then
      setEntry key ⟨ev, lastChange.file⟩ log
    else log

/-- The `context.events.on('watch')` handler's effect on the folded change
log: drop `change` events for files that were only scanned, simplify the
event, resolve the file through `blamedFiles` (an entry with a present but
empty cause set contributes nothing; an absent entry falls back to the file
itself), and fold each resolved key into the log. -/
def onWatchEvent (root : String) (watchedFiles : List String)
    (blamedFiles : List (String × List String)) (event : ChokidarEvent)
    (file : String) (changes : List (String × FileChange)) :
    List (String × FileChange) :=
  if event = ChokidarEvent.change ∧ file ∉ watchedFiles then changes
  else
    let ev := normalizeEvent event
    let keys := (lookupKey file blamedFiles).getD [file]
    keys.foldl (fun log k => applyChange log k ev (pathRelative root k)) changes

/-! ## The reset decision (`reset` in `src/context.ts`) -/

/-- The shape of the `watch` factory option: `false`, `true`, or an array of
initial paths/globs. -/
inductive WatchOpt
  | off
  | on
  | paths (inputs : List String)

/-- What `statSync(p, {throwIfNoEntry: false})` can report about an initial
watch input. -/
inductive StatKind
  | missing
  | file
  | directory
  | other

/-- Register one entry of the `watch` option array during a (hard or first)
reset: reject negative globs, `addFile` existing files, `add` a recursive
glob under existing directories, and `add` anything else as a pattern. -/
def registerInput (stat : String → StatKind) (ex : String → Bool)
    (scanBase : String → String × String × Bool)
    (compile : String → AddOptions → String → Bool) (root : String)
    (w : WatcherState) (input : String) : Except String WatcherState :=
  if strStartsWith input "!" then
    Except.error "The `watch` option does not support negative globs."
  else
    let resolvedInput := pathResolve root input
    match stat resolvedInput with
    | StatKind.file => Except.ok (addFile ex resolvedInput none false w)
    | StatKind.directory =>
      Except.ok (add ex scanBase compile root [pathJoin input "**/*"] {} w)
    | _ => Except.ok (add ex scanBase compile root [input] {} w)

/-- Fold `registerInput` over the whole `watch` option array. -/
def registerInputs (stat : String → StatKind) (ex : String → Bool)
    (scanBase : String → String × String × Bool)
    (compile : String → AddOptions → String → Bool) (root : String)
    (inputs : List String) (w : WatcherState) : Except String WatcherState :=
  inputs.foldlM (registerInput stat ex scanBase compile root) w

/-- `reset(changes?)` from `src/context.ts`, for a context in watch mode
(`watcher` present), acting on the watcher state and the user `store` (of
arbitrary type `σ`; `emptySt` is the fresh `{} as TStore`).  The fresh
`AbortController` is an external cancellation token and carries no modelled
state.  Hard reset: some change-log key is critical — clear the store,
close the registry and rebuild it from a fresh one, re-registering the
`watch` option array.  Soft reset: unwatch every changed file whose folded
event is not `add`. -/
def reset {σ : Type} (stat : String → StatKind) (ex : String → Bool)
    (scanBase : String → String × String × Bool)
    (compile : String → AddOptions → String → Bool) (root : String)
    (watchOpt : WatchOpt) (emptySt : σ) (w : WatcherState) (store : σ)
    (changes : Option (List (String × FileChange))) :
    Except String (WatcherState × σ) :=
  -- `isHardReset` stays true when there is no change log (first run) or
  -- when some change-log key is critical; only a hard reset with an array
  -- `watch` option re-registers the initial inputs.
  let register := fun (w : WatcherState) (store : σ) =>
    match watchOpt with
    | WatchOpt.paths inputs =>
      match registerInputs stat ex scanBase compile root inputs w with
      | Except.ok w' => Except.ok (w', store)
      | Except.error e => Except.error e
    | _ => Except.ok (w, store)
  match changes with
  | some log =>
    if (keysOf log).any (fun k => isFileCritical w k) then
      -- hard reset: clear the store, close the registry, rebuild fresh
      register freshWatcher emptySt
    else
      -- soft reset: unwatch every changed file whose event is not `add`
      Except.ok
        (log.foldl
          (fun acc e =>
            if e.2.event ≠ ChangeEvent.add then
              unwatch (pathResolve root e.2.file) acc
            else acc)
          w,
         store)
  | none => register w store

/-! ## The filesystem facade's `write` (`src/context.ts`) -/

/-- A snapshot of the bytes on disk: file contents (modelled as strings;
byte equality becomes string equality) and the set of directories. -/
structure FsImage where
  files : List (String × String)
  dirs : List String

/-- The externally visible actions `write` can perform, in order. -/
inductive WriteAction
  | mkdir (dir : String)
  | writeFile (file : String) (data : String)
  | emitWrite (file : String)
deriving DecidableEq, Repr

/-- `fs.write(file, data)`: resolve the path; if the current on-disk
contents are byte-equal to `data`, do nothing (the `try`/`catch` also sends
a missing file to the write branch); otherwise create parent directories
recursively, write the file, and emit the `write` event after the write. -/
def write (root file data : String) (fsys : FsImage) :
    FsImage × List WriteAction :=
  let file := pathResolve root file
  let doWrite : FsImage × List WriteAction :=
    ({ files := setEntry file data fsys.files
       dirs := (parentChain (pathDirname file)).foldl
         (fun acc d => insertSet d acc) fsys.dirs },
     [WriteAction.mkdir (pathDirname file),
      WriteAction.writeFile file data,
      WriteAction.emitWrite file])
  match lookupKey file fsys.files with
  | some content => if content = data then (fsys, []) else doWrite
  | none => doWrite

/-! ## Operation sequences over the registry -/

/-- The registry operations a generator run can perform through the facade,
as far as `watchedFiles`/`blamedFiles`/`criticalFiles` are concerned. -/
inductive RegistryOp
  | addFile (file : String) (cause : Option (List String)) (critical : Bool)
  | unwatch (file : String)

/-- Apply one registry operation. -/
def applyOp (ex : String → Bool) (s : WatcherState) :
    RegistryOp → WatcherState
  | RegistryOp.addFile f c cr => addFile ex f c cr s
  | RegistryOp.unwatch f => unwatch f s

/-- Run a sequence of registry operations from a given state. -/
def runOps (ex : String → Bool) (ops : List RegistryOp) (s : WatcherState) :
    WatcherState :=
  ops.foldl (applyOp ex) s

/-! ## Algebra of the `Set`/`Map` primitives -/

theorem mem_insertSet {x y : String} {l : List String} :
    x ∈ insertSet y l ↔ x = y ∨ x ∈ l := by
  unfold insertSet
  by_cases h : y ∈ l
  · simp only [if_pos h]
    constructor
    · exact fun hx => Or.inr hx
    · rintro (rfl | hx)
      · exact h
      · exact hx
  · simp only [if_neg h, List.mem_append, List.mem_singleton]
    tauto

theorem self_mem_insertSet {y : String} {l : List String} :
    y ∈ insertSet y l := mem_insertSet.mpr (Or.inl rfl)

theorem insertSet_nodup {y : String} {l : List String} (h : l.Nodup) :
    (insertSet y l).Nodup := by
  unfold insertSet
  by_cases hy : y ∈ l
  · simpa [hy]
  · simp [hy, List.nodup_append, h]

theorem insertSet_ne_nil {y : String} {l : List String} :
    insertSet y l ≠ [] :=
  List.ne_nil_of_mem self_mem_insertSet

theorem mem_foldl_insertSet {x : String} {cs seed : List String} :
    x ∈ cs.foldl (fun acc c => insertSet c acc) seed ↔ x ∈ seed ∨ x ∈ cs := by
  induction cs generalizing seed with
  | nil => simp
  | cons c rest ih =>
    simp only [List.foldl_cons, ih, mem_insertSet, List.mem_cons]
    tauto

theorem foldl_insertSet_nodup {cs seed : List String} (h : seed.Nodup) :
    (cs.foldl (fun acc c => insertSet c acc) seed).Nodup := by
  induction cs generalizing seed with
  | nil => exact h
  | cons c rest ih => exact ih (insertSet_nodup h)

theorem foldl_insertSet_ne_nil_of_ne_nil {cs seed : List String}
    (h : cs ≠ []) : cs.foldl (fun acc c => insertSet c acc) seed ≠ [] := by
  match cs with
  | c :: rest =>
    apply List.ne_nil_of_mem (a := c)
    exact mem_foldl_insertSet.mpr (Or.inr (List.mem_cons_self _ _))

theorem lookupKey_eq_none {α : Type} {k : String} {m : List (String × α)} :
    lookupKey k m = none ↔ k ∉ keysOf m := by
  induction m with
  | nil => simp [lookupKey, keysOf]
  | cons e rest ih =>
    by_cases h : e.1 = k
    · simp [lookupKey, keysOf, h]
    · simp only [lookupKey, if_neg h, keysOf, List.map_cons, List.mem_cons]
      rw [ih]
      constructor
      · rintro hn (h1 | h2)
        · exact h h1.symm
        · exact hn h2
      · intro hn
        exact fun h2 => hn (Or.inr h2)

theorem lookupKey_isSome {α : Type} {k : String} {m : List (String × α)} :
    (lookupKey k m).isSome = true ↔ k ∈ keysOf m := by
  rw [Option.isSome_iff_ne_none]
  constructor
  · intro h
    by_contra hk
    exact h (lookupKey_eq_none.mpr hk)
  · intro h hn
    exact lookupKey_eq_none.mp hn h

theorem mem_of_lookupKey {α : Type} {k : String} {v : α}
    {m : List (String × α)} (h : lookupKey k m = some v) : (k, v) ∈ m := by
  induction m with
  | nil => simp [lookupKey] at h
  | cons e rest ih =>
    by_cases he : e.1 = k
    · simp only [lookupKey, if_pos he, Option.some.injEq] at h
      have : e = (k, v) := by
        cases e
        simp only [Prod.mk.injEq]
        exact ⟨he, h⟩
      rw [← this]
      exact List.mem_cons_self _ _
    · simp only [lookupKey, if_neg he] at h
      exact List.mem_cons_of_mem _ (ih h)

theorem lookupKey_mem_keys {α : Type} {k : String} {v : α}
    {m : List (String × α)} (h : lookupKey k m = some v) : k ∈ keysOf m := by
  have := mem_of_lookupKey h
  exact List.mem_map.mpr ⟨(k, v), this, rfl⟩

theorem lookupKey_append_of_none {α : Type} {k : String}
    {m m' : List (String × α)} (h : lookupKey k m = none) :
    lookupKey k (m ++ m') = lookupKey k m' := by
  induction m with
  | nil => simp
  | cons e rest ih =>
    by_cases he : e.1 = k
    · simp [lookupKey, if_pos he] at h
    · simp only [lookupKey, if_neg he] at h ⊢
      simpa [lookupKey, if_neg he] using ih h

theorem lookupKey_append_of_some {α : Type} {k : String} {v : α}
    {m m' : List (String × α)} (h : lookupKey k m = some v) :
    lookupKey k (m ++ m') = some v := by
  induction m with
  | nil => simp [lookupKey] at h
  | cons e rest ih =>
    by_cases he : e.1 = k
    · simp only [lookupKey, if_pos he] at h ⊢
      simpa [lookupKey, if_pos he] using h
    · simp only [lookupKey, if_neg he] at h ⊢
      simpa [lookupKey, if_neg he] using ih h

theorem keysOf_setEntry_of_mem {α : Type} {k : String} {v : α}
    {m : List (String × α)} (h : k ∈ keysOf m) :
    keysOf (setEntry k v m) = keysOf m := by
  unfold setEntry
  rw [if_pos (lookupKey_isSome.mpr h)]
  unfold keysOf
  rw [List.map_map]
  apply List.map_congr_left
  intro e _
  by_cases he : e.1 = k
  · simp [he]
  · simp [he]

theorem keysOf_setEntry_of_not_mem {α : Type} {k : String} {v : α}
    {m : List (String × α)} (h : k ∉ keysOf m) :
    keysOf (setEntry k v m) = keysOf m ++ [k] := by
  unfold setEntry
  rw [if_neg (by simpa using (lookupKey_isSome (k := k) (m := m)).not.mpr h)]
  simp [keysOf]

/-- The overwrite-in-place half of `setEntry`, isolated for proofs. -/
def overwriteEntry {α : Type} (k : String) (v : α) (m : List (String × α)) :
    List (String × α) :=
  m.map fun e => if e.1 = k then (k, v) else e

theorem setEntry_eq {α : Type} {k : String} {v : α} {m : List (String × α)} :
    setEntry k v m =
      if (lookupKey k m).isSome then overwriteEntry k v m else m ++ [(k, v)] :=
  rfl

theorem lookupKey_overwriteEntry_self {α : Type} {k : String} {v : α}
    {m : List (String × α)} :
    lookupKey k (overwriteEntry k v m) = (lookupKey k m).map fun _ => v := by
  induction m with
  | nil => simp [overwriteEntry, lookupKey]
  | cons e rest ih =>
    by_cases he : e.1 = k
    · simp [overwriteEntry, lookupKey, he]
    · simp only [overwriteEntry, List.map_cons, if_neg he] at ih ⊢
      simp only [lookupKey, if_neg he]
      exact ih

theorem lookupKey_overwriteEntry_ne {α : Type} {k k' : String} {v : α}
    {m : List (String × α)} (h : k' ≠ k) :
    lookupKey k' (overwriteEntry k v m) = lookupKey k' m := by
  induction m with
  | nil => simp [overwriteEntry, lookupKey]
  | cons e rest ih =>
    by_cases hek : e.1 = k
    · have hne : k ≠ k' := fun hk => h hk.symm
      have hene : e.1 ≠ k' := by rw [hek]; exact hne
      simp only [overwriteEntry, List.map_cons, if_pos hek, lookupKey,
        if_neg hne, if_neg hene]
      exact ih
    · simp only [overwriteEntry, List.map_cons, if_neg hek, lookupKey]
      by_cases he : e.1 = k'
      · simp [if_pos he]
      · simp only [if_neg he]
        exact ih

theorem lookupKey_setEntry_self {α : Type} {k : String} {v : α}
    {m : List (String × α)} : lookupKey k (setEntry k v m) = some v := by
  rw [setEntry_eq]
  by_cases h : (lookupKey k m).isSome = true
  · rw [if_pos h, lookupKey_overwriteEntry_self]
    obtain ⟨w, hw⟩ := Option.isSome_iff_exists.mp h
    simp [hw]
  · rw [if_neg h]
    have hn : lookupKey k m = none := by
      cases hm : lookupKey k m
      · rfl
      · simp [hm] at h
    rw [lookupKey_append_of_none hn]
    simp [lookupKey]

theorem lookupKey_append_single_ne {α : Type} {k k' : String} {v : α}
    {m : List (String × α)} (h : k' ≠ k) :
    lookupKey k' (m ++ [(k, v)]) = lookupKey k' m := by
  induction m with
  | nil =>
    simp only [List.nil_append, lookupKey,
      if_neg (show ¬k = k' from fun hk => h hk.symm)]
  | cons e rest ih =>
    by_cases he : e.1 = k'
    · simp [lookupKey, if_pos he]
    · simp only [List.cons_append, lookupKey, if_neg he]
      exact ih

theorem lookupKey_setEntry_ne {α : Type} {k k' : String} {v : α}
    {m : List (String × α)} (h : k' ≠ k) :
    lookupKey k' (setEntry k v m) = lookupKey k' m := by
  rw [setEntry_eq]
  by_cases hs : (lookupKey k m).isSome = true
  · rw [if_pos hs]
    exact lookupKey_overwriteEntry_ne h
  · rw [if_neg hs]
    exact lookupKey_append_single_ne h

theorem mem_setEntry {α : Type} {k q : String} {v cs : α}
    {m : List (String × α)} (h : (q, cs) ∈ setEntry k v m) :
    (q = k ∧ cs = v) ∨ ((q, cs) ∈ m ∧ q ≠ k) := by
  rw [setEntry_eq] at h
  by_cases hs : (lookupKey k m).isSome = true
  · rw [if_pos hs] at h
    obtain ⟨e, hmem, heq⟩ := List.mem_map.mp h
    by_cases he : e.1 = k
    · rw [if_pos he] at heq
      left
      have h1 : q = k := congrArg Prod.fst heq.symm
      have h2 : cs = v := congrArg Prod.snd heq.symm
      exact ⟨h1, h2⟩
    · rw [if_neg he] at heq
      right
      have hq : q ≠ k := by
        have hqe : q = e.1 := congrArg Prod.fst heq.symm
        rw [hqe]
        exact he
      exact ⟨heq ▸ hmem, hq⟩
  · rw [if_neg hs] at h
    rcases List.mem_append.mp h with hm | hm
    · right
      refine ⟨hm, fun hq => ?_⟩
      have hn : lookupKey k m = none := by
        cases hv : lookupKey k m
        · rfl
        · simp [hv] at hs
      exact lookupKey_eq_none.mp hn
        (List.mem_map.mpr ⟨(q, cs), hm, hq⟩)
    · left
      simpa using hm

theorem length_setEntry_of_mem {α : Type} {k : String} {v : α}
    {m : List (String × α)} (h : k ∈ keysOf m) :
    (setEntry k v m).length = m.length := by
  unfold setEntry
  rw [if_pos (lookupKey_isSome.mpr h)]
  simp

theorem mem_eraseEntry {α : Type} {k q : String} {cs : α}
    {m : List (String × α)} :
    (q, cs) ∈ eraseEntry k m ↔ (q, cs) ∈ m ∧ q ≠ k := by
  unfold eraseEntry
  rw [List.mem_filter]
  simp

theorem keysOf_eraseEntry_not_mem {α : Type} {k : String}
    {m : List (String × α)} : k ∉ keysOf (eraseEntry k m) := by
  intro h
  obtain ⟨e, hmem, heq⟩ := List.mem_map.mp h
  have := (List.mem_filter.mp hmem).2
  simp [heq] at this

theorem length_eraseEntry_le {α : Type} {k : String} {m : List (String × α)} :
    (eraseEntry k m).length ≤ m.length :=
  List.length_filter_le _ _

theorem length_eraseEntry_lt {α : Type} {k : String} {m : List (String × α)}
    (h : k ∈ keysOf m) : (eraseEntry k m).length < m.length := by
  obtain ⟨e, hmem, heq⟩ := List.mem_map.mp h
  unfold eraseEntry
  apply List.length_filter_lt_length_iff_exists.mpr
  exact ⟨e, hmem, by simp [heq]⟩

theorem keysOf_eraseEntry_subset {α : Type} {k : String}
    {m : List (String × α)} {q : String} (h : q ∈ keysOf (eraseEntry k m)) :
    q ∈ keysOf m := by
  obtain ⟨e, hmem, heq⟩ := List.mem_map.mp h
  exact List.mem_map.mpr ⟨e, (List.mem_filter.mp hmem).1, heq⟩

/-! ## Invariance of the missing-path bookkeeping -/

theorem watchPath_watchedFiles (ex : String → Bool) :
    ∀ (fuel : Nat) (file : String) (s : WatcherState),
      (watchPath ex fuel file s).watchedFiles = s.watchedFiles := by
  intro fuel
  induction fuel with
  | zero => intro file s; rfl
  | succ n ih =>
    intro file s
    unfold watchPath
    by_cases hex : ex file
    · simp [hex]
    · simp only [hex, Bool.false_eq_true, if_false]
      by_cases hfb : pathDirname file ≠ file
      · simp only [if_pos hfb]
        exact ih _ _
      · simp only [if_neg hfb]

theorem watchPath_blamedFiles (ex : String → Bool) :
    ∀ (fuel : Nat) (file : String) (s : WatcherState),
      (watchPath ex fuel file s).blamedFiles = s.blamedFiles := by
  intro fuel
  induction fuel with
  | zero => intro file s; rfl
  | succ n ih =>
    intro file s
    unfold watchPath
    by_cases hex : ex file
    · simp [hex]
    · simp only [hex, Bool.false_eq_true, if_false]
      by_cases hfb : pathDirname file ≠ file
      · simp only [if_pos hfb]
        exact ih _ _
      · simp only [if_neg hfb]

theorem watchPath_criticalFiles (ex : String → Bool) :
    ∀ (fuel : Nat) (file : String) (s : WatcherState),
      (watchPath ex fuel file s).criticalFiles = s.criticalFiles := by
  intro fuel
  induction fuel with
  | zero => intro file s; rfl
  | succ n ih =>
    intro file s
    unfold watchPath
    by_cases hex : ex file
    · simp [hex]
    · simp only [hex, Bool.false_eq_true, if_false]
      by_cases hfb : pathDirname file ≠ file
      · simp only [if_pos hfb]
        exact ih _ _
      · simp only [if_neg hfb]

theorem watchPathTop_watchedFiles {ex : String → Bool} {file : String}
    {s : WatcherState} :
    (watchPathTop ex file s).watchedFiles = s.watchedFiles :=
  watchPath_watchedFiles ex _ _ _

theorem watchPathTop_blamedFiles {ex : String → Bool} {file : String}
    {s : WatcherState} :
    (watchPathTop ex file s).blamedFiles = s.blamedFiles :=
  watchPath_blamedFiles ex _ _ _

theorem watchPathTop_criticalFiles {ex : String → Bool} {file : String}
    {s : WatcherState} :
    (watchPathTop ex file s).criticalFiles = s.criticalFiles :=
  watchPath_criticalFiles ex _ _ _

/-! ## The cascade: order, termination and invariants of `unwatch` -/

/-- `t` is reachable from `s` by deletions only: watched, critical and
blamed entries never grow during an `unwatch` cascade. -/
def Shrinks (t s : WatcherState) : Prop :=
  (∀ x ∈ t.watchedFiles, x ∈ s.watchedFiles) ∧
  (∀ x ∈ t.criticalFiles, x ∈ s.criticalFiles) ∧
  (∀ q ∈ keysOf t.blamedFiles, q ∈ keysOf s.blamedFiles) ∧
  (∀ q cs, (q, cs) ∈ t.blamedFiles →
    ∃ cs₀, (q, cs₀) ∈ s.blamedFiles ∧ ∀ x ∈ cs, x ∈ cs₀)

theorem Shrinks.refl (s : WatcherState) : Shrinks s s :=
  ⟨fun _ h => h, fun _ h => h, fun _ h => h,
   fun _ cs h => ⟨cs, h, fun _ hx => hx⟩⟩

theorem Shrinks.trans {u t s : WatcherState} (h1 : Shrinks u t)
    (h2 : Shrinks t s) : Shrinks u s := by
  obtain ⟨w1, c1, k1, b1⟩ := h1
  obtain ⟨w2, c2, k2, b2⟩ := h2
  refine ⟨fun x hx => w2 x (w1 x hx), fun x hx => c2 x (c1 x hx),
    fun q hq => k2 q (k1 q hq), fun q cs h => ?_⟩
  obtain ⟨cs₁, hmem₁, hsub₁⟩ := b1 q cs h
  obtain ⟨cs₂, hmem₂, hsub₂⟩ := b2 q cs₁ hmem₁
  exact ⟨cs₂, hmem₂, fun x hx => hsub₂ x (hsub₁ x hx)⟩

theorem shrinks_removeFilePaths {file : String} {s : WatcherState} :
    Shrinks (removeFilePaths file s) s := by
  refine ⟨fun x hx => ?_, fun x hx => ?_, fun q hq => ?_, fun q cs h => ?_⟩
  · exact List.erase_subset _ _ hx
  · exact List.erase_subset _ _ hx
  · exact keysOf_eraseEntry_subset hq
  · exact ⟨cs, (mem_eraseEntry.mp h).1, fun _ hx => hx⟩

theorem shrinks_setCauses {q : String} {causes causes' : List String}
    {s : WatcherState} (hlook : lookupKey q s.blamedFiles = some causes)
    (hsub : ∀ x ∈ causes', x ∈ causes) :
    Shrinks { s with blamedFiles := setEntry q causes' s.blamedFiles } s := by
  have hkmem : q ∈ keysOf s.blamedFiles := lookupKey_mem_keys hlook
  refine ⟨fun x hx => hx, fun x hx => hx, fun r hr => ?_, fun r cs h => ?_⟩
  · rwa [keysOf_setEntry_of_mem hkmem] at hr
  · rcases mem_setEntry h with ⟨rfl, rfl⟩ | ⟨hmem, _⟩
    · exact ⟨causes, mem_of_lookupKey hlook, hsub⟩
    · exact ⟨cs, hmem, fun _ hx => hx⟩

theorem unwatchLoop_shrinks
    {recurse : String → WatcherState → Option WatcherState} {file : String}
    (hrec : ∀ q s' t', recurse q s' = some t' → Shrinks t' s') :
    ∀ (ks : List String) (s t : WatcherState),
      unwatchLoop recurse file ks s = some t → Shrinks t s := by
  intro ks
  induction ks with
  | nil =>
    intro s t h
    simp only [unwatchLoop, Option.some.injEq] at h
    exact h ▸ Shrinks.refl s
  | cons q rest ih =>
    intro s t h
    cases hlook : lookupKey q s.blamedFiles with
    | none =>
      simp only [unwatchLoop, hlook] at h
      exact ih s t h
    | some causes =>
      simp only [unwatchLoop, hlook] at h
      by_cases hf : file ∈ causes
      · rw [if_pos hf] at h
        have hsub : ∀ x ∈ causes.erase file, x ∈ causes :=
          fun x hx => List.erase_subset _ _ hx
        by_cases hnil : causes.erase file = []
        · rw [if_pos hnil] at h
          cases hr : recurse q
              { s with blamedFiles := setEntry q (causes.erase file) s.blamedFiles } with
          | none =>
            rw [hr] at h
            exact absurd h (by simp)
          | some s'' =>
            rw [hr] at h
            exact (ih _ _ h).trans ((hrec _ _ _ hr).trans
              (shrinks_setCauses hlook hsub))
        · rw [if_neg hnil] at h
          exact (ih _ _ h).trans (shrinks_setCauses hlook hsub)
      · rw [if_neg hf] at h
        exact ih s t h

theorem unwatchO_shrinks :
    ∀ (fuel : Nat) (file : String) (s t : WatcherState),
      unwatchO fuel file s = some t → Shrinks t s := by
  intro fuel
  induction fuel with
  | zero => intro file s t h; simp [unwatchO] at h
  | succ n ih =>
    intro file s t h
    simp only [unwatchO] at h
    exact (unwatchLoop_shrinks (fun q s' t' hr => ih q s' t' hr) _ _ _ h).trans
      shrinks_removeFilePaths

/-- The loop never increases the number of blame entries (needed for the
fuel-sufficiency argument). -/
theorem unwatchLoop_length
    {recurse : String → WatcherState → Option WatcherState} {file : String}
    (hrecLen : ∀ q s' t', recurse q s' = some t' →
      t'.blamedFiles.length ≤ (eraseEntry q s'.blamedFiles).length) :
    ∀ (ks : List String) (s t : WatcherState),
      unwatchLoop recurse file ks s = some t →
        t.blamedFiles.length ≤ s.blamedFiles.length := by
  intro ks
  induction ks with
  | nil =>
    intro s t h
    simp only [unwatchLoop, Option.some.injEq] at h
    exact h ▸ Nat.le_refl _
  | cons q rest ih =>
    intro s t h
    cases hlook : lookupKey q s.blamedFiles with
    | none =>
      simp only [unwatchLoop, hlook] at h
      exact ih s t h
    | some causes =>
      simp only [unwatchLoop, hlook] at h
      have hkmem : q ∈ keysOf s.blamedFiles := lookupKey_mem_keys hlook
      have hsetlen :
          (setEntry q (causes.erase file) s.blamedFiles).length =
            s.blamedFiles.length := length_setEntry_of_mem hkmem
      by_cases hf : file ∈ causes
      · rw [if_pos hf] at h
        by_cases hnil : causes.erase file = []
        · rw [if_pos hnil] at h
          cases hr : recurse q
              { s with blamedFiles := setEntry q (causes.erase file) s.blamedFiles } with
          | none =>
            rw [hr] at h
            exact absurd h (by simp)
          | some s'' =>
            rw [hr] at h
            have h1 := ih _ _ h
            have h2 : s''.blamedFiles.length ≤
                (eraseEntry q (setEntry q (causes.erase file)
                  s.blamedFiles)).length := hrecLen _ _ _ hr
            have h3 : (eraseEntry q
                (setEntry q (causes.erase file) s.blamedFiles)).length ≤
                (setEntry q (causes.erase file) s.blamedFiles).length :=
              length_eraseEntry_le
            omega
        · rw [if_neg hnil] at h
          have h1 : t.blamedFiles.length ≤
              (setEntry q (causes.erase file) s.blamedFiles).length :=
            ih _ _ h
          omega
      · rw [if_neg hf] at h
        exact ih s t h

theorem unwatchO_length :
    ∀ (fuel : Nat) (file : String) (s t : WatcherState),
      unwatchO fuel file s = some t →
        t.blamedFiles.length ≤ (eraseEntry file s.blamedFiles).length := by
  intro fuel
  induction fuel with
  | zero => intro file s t h; simp [unwatchO] at h
  | succ n ih =>
    intro file s t h
    simp only [unwatchO] at h
    exact unwatchLoop_length (fun q s' t' hr => ih q s' t' hr) _ _ _ h

/-- With enough fuel the loop never fails: the nested cascades only ever
shrink the blame map, so a fuel bounding the live map's size suffices. -/
theorem unwatchLoop_isSome
    {recurse : String → WatcherState → Option WatcherState} {file : String}
    {bound : Nat}
    (hrecSome : ∀ q s', (eraseEntry q s'.blamedFiles).length < bound →
      (recurse q s').isSome = true)
    (hrecLen : ∀ q s' t', recurse q s' = some t' →
      t'.blamedFiles.length ≤ (eraseEntry q s'.blamedFiles).length) :
    ∀ (ks : List String) (s : WatcherState),
      s.blamedFiles.length ≤ bound →
        (unwatchLoop recurse file ks s).isSome = true := by
  intro ks
  induction ks with
  | nil => intro s _; simp [unwatchLoop]
  | cons q rest ih =>
    intro s hs
    cases hlook : lookupKey q s.blamedFiles with
    | none =>
      simp only [unwatchLoop, hlook]
      exact ih s hs
    | some causes =>
      simp only [unwatchLoop, hlook]
      have hkmem : q ∈ keysOf s.blamedFiles := lookupKey_mem_keys hlook
      have hsetlen :
          (setEntry q (causes.erase file) s.blamedFiles).length =
            s.blamedFiles.length := length_setEntry_of_mem hkmem
      by_cases hf : file ∈ causes
      · rw [if_pos hf]
        by_cases hnil : causes.erase file = []
        · rw [if_pos hnil]
          set s' : WatcherState :=
            { s with blamedFiles := setEntry q (causes.erase file) s.blamedFiles }
            with hs'
          have hqmem' : q ∈ keysOf s'.blamedFiles := by
            rw [hs']
            simpa [keysOf_setEntry_of_mem hkmem] using hkmem
          have hlt : (eraseEntry q s'.blamedFiles).length < bound := by
            have h1 : (eraseEntry q s'.blamedFiles).length <
                s'.blamedFiles.length := length_eraseEntry_lt hqmem'
            have h2 : s'.blamedFiles.length = s.blamedFiles.length := hsetlen
            omega
          have hsome := hrecSome q s' hlt
          cases hr : recurse q s' with
          | none => rw [hr] at hsome; simp at hsome
          | some s'' =>
            have hlen := hrecLen _ _ _ hr
            have h1 : (eraseEntry q s'.blamedFiles).length <
                s'.blamedFiles.length := length_eraseEntry_lt hqmem'
            have h2 : s'.blamedFiles.length = s.blamedFiles.length := hsetlen
            exact ih s'' (by omega)
        · rw [if_neg hnil]
          refine ih _ ?_
          show (setEntry q (causes.erase file) s.blamedFiles).length ≤ bound
          omega
      · rw [if_neg hf]
        exact ih s hs

theorem unwatchO_isSome :
    ∀ (fuel : Nat) (file : String) (s : WatcherState),
      (eraseEntry file s.blamedFiles).length < fuel →
        (unwatchO fuel file s).isSome = true := by
  intro fuel
  induction fuel with
  | zero => intro file s h; omega
  | succ n ih =>
    intro file s h
    simp only [unwatchO]
    apply unwatchLoop_isSome
      (fun q s' hlt => ih q s' hlt)
      (fun q s' t' hr => unwatchO_length n q s' t' hr)
    show (eraseEntry file s.blamedFiles).length ≤ n
    omega

/-- `unwatch` is the fuel-`(|blamedFiles| + 1)` run of the cascade, and that
fuel always suffices. -/
theorem unwatch_eq_unwatchO {file : String} {s : WatcherState} :
    unwatchO (s.blamedFiles.length + 1) file s = some (unwatch file s) := by
  have h : (eraseEntry file s.blamedFiles).length < s.blamedFiles.length + 1 := by
    have := length_eraseEntry_le (k := file) (m := s.blamedFiles)
    omega
  have hsome := unwatchO_isSome _ file s h
  obtain ⟨t, ht⟩ := Option.isSome_iff_exists.mp hsome
  rw [unwatch, ht]
  simp [ht]

/-- The keys of the blame map are duplicate-free (a JS `Map` cannot hold a
key twice). -/
def KeysNodup (s : WatcherState) : Prop := (keysOf s.blamedFiles).Nodup

/-- Every cause set of the blame map is duplicate-free (a JS `Set`). -/
def CausesNodup (s : WatcherState) : Prop :=
  ∀ e ∈ s.blamedFiles, e.2.Nodup

theorem keysOf_eraseEntry_sublist {α : Type} {k : String}
    {m : List (String × α)} :
    (keysOf (eraseEntry k m)).Sublist (keysOf m) :=
  (List.filter_sublist m).map Prod.fst

theorem lookupKey_of_mem_of_nodup {α : Type} {k : String} {v : α}
    {m : List (String × α)} (hnd : (keysOf m).Nodup) (h : (k, v) ∈ m) :
    lookupKey k m = some v := by
  induction m with
  | nil => simp at h
  | cons e rest ih =>
    rcases List.mem_cons.mp h with rfl | hmem
    · simp [lookupKey]
    · have hnd' : (e.1 :: keysOf rest).Nodup := by
        simpa only [keysOf, List.map_cons] using hnd
      have hk : k ∈ keysOf rest := List.mem_map.mpr ⟨(k, v), hmem, rfl⟩
      have hne : e.1 ≠ k := fun he =>
        (List.nodup_cons.mp hnd').1 (he ▸ hk)
      simp only [lookupKey, if_neg hne]
      exact ih (List.nodup_cons.mp hnd').2 hmem

theorem unwatchLoop_nodups
    {recurse : String → WatcherState → Option WatcherState} {file : String}
    (hrec : ∀ q s' t', recurse q s' = some t' →
      KeysNodup s' ∧ CausesNodup s' → KeysNodup t' ∧ CausesNodup t') :
    ∀ (ks : List String) (s t : WatcherState), KeysNodup s → CausesNodup s →
      unwatchLoop recurse file ks s = some t → KeysNodup t ∧ CausesNodup t := by
  intro ks
  induction ks with
  | nil =>
    intro s t hk hc h
    simp only [unwatchLoop, Option.some.injEq] at h
    exact h ▸ ⟨hk, hc⟩
  | cons q rest ih =>
    intro s t hk hc h
    cases hlook : lookupKey q s.blamedFiles with
    | none =>
      simp only [unwatchLoop, hlook] at h
      exact ih s t hk hc h
    | some causes =>
      simp only [unwatchLoop, hlook] at h
      have hkmem : q ∈ keysOf s.blamedFiles := lookupKey_mem_keys hlook
      have hcnd : causes.Nodup := hc _ (mem_of_lookupKey hlook)
      have hk' : KeysNodup
          { s with blamedFiles := setEntry q (causes.erase file) s.blamedFiles } := by
        show (keysOf (setEntry q (causes.erase file) s.blamedFiles)).Nodup
        rwa [keysOf_setEntry_of_mem hkmem]
      have hc' : CausesNodup
          { s with blamedFiles := setEntry q (causes.erase file) s.blamedFiles } := by
        intro e he
        rcases mem_setEntry (by
          show (e.1, e.2) ∈ setEntry q (causes.erase file) s.blamedFiles
          simpa using he) with ⟨_, hv⟩ | ⟨hmem, _⟩
        · show e.2.Nodup
          rw [hv]
          exact hcnd.erase _
        · exact hc _ hmem
      by_cases hf : file ∈ causes
      · rw [if_pos hf] at h
        by_cases hnil : causes.erase file = []
        · rw [if_pos hnil] at h
          cases hr : recurse q
              { s with blamedFiles := setEntry q (causes.erase file) s.blamedFiles } with
          | none =>
            rw [hr] at h
            exact absurd h (by simp)
          | some s'' =>
            rw [hr] at h
            obtain ⟨hk'', hc''⟩ := hrec _ _ _ hr ⟨hk', hc'⟩
            exact ih _ _ hk'' hc'' h
        · rw [if_neg hnil] at h
          exact ih _ _ hk' hc' h
      · rw [if_neg hf] at h
        exact ih s t hk hc h

theorem unwatchO_nodups :
    ∀ (fuel : Nat) (file : String) (s t : WatcherState),
      unwatchO fuel file s = some t → KeysNodup s ∧ CausesNodup s →
        KeysNodup t ∧ CausesNodup t := by
  intro fuel
  induction fuel with
  | zero => intro file s t h _; simp [unwatchO] at h
  | succ n ih =>
    intro file s t h hsc
    simp only [unwatchO] at h
    have hk1 : KeysNodup (removeFilePaths file s) :=
      hsc.1.sublist keysOf_eraseEntry_sublist
    have hc1 : CausesNodup (removeFilePaths file s) := by
      intro e he
      exact hsc.2 _ (mem_eraseEntry.mp (by
        show (e.1, e.2) ∈ eraseEntry file s.blamedFiles
        simpa using he)).1
    exact unwatchLoop_nodups (fun q s' t' hr => ih q s' t' hr) _ _ _ hk1 hc1 h

/-- After the cascade loop has processed every key holding `file` as a
cause, no cause set mentions `file` any more. -/
theorem unwatchLoop_clears
    {recurse : String → WatcherState → Option WatcherState} {file : String}
    (hrecShr : ∀ q s' t', recurse q s' = some t' → Shrinks t' s')
    (hrecNodups : ∀ q s' t', recurse q s' = some t' →
      KeysNodup s' ∧ CausesNodup s' → KeysNodup t' ∧ CausesNodup t') :
    ∀ (ks : List String) (s t : WatcherState), KeysNodup s → CausesNodup s →
      (∀ q cs, (q, cs) ∈ s.blamedFiles → file ∈ cs → q ∈ ks) →
      unwatchLoop recurse file ks s = some t →
      ∀ q cs, (q, cs) ∈ t.blamedFiles → file ∉ cs := by
  intro ks
  induction ks with
  | nil =>
    intro s t _ _ hcover h q cs hmem hf
    simp only [unwatchLoop, Option.some.injEq] at h
    exact absurd (hcover q cs (h ▸ hmem) hf) (List.not_mem_nil _)
  | cons q rest ih =>
    intro s t hk hc hcover h
    cases hlook : lookupKey q s.blamedFiles with
    | none =>
      simp only [unwatchLoop, hlook] at h
      refine ih s t hk hc (fun r cs hmem hf => ?_) h
      rcases List.mem_cons.mp (hcover r cs hmem hf) with rfl | hr
      · exact absurd (lookupKey_of_mem_of_nodup hk hmem) (by simp [hlook])
      · exact hr
    | some causes =>
      simp only [unwatchLoop, hlook] at h
      have hkmem : q ∈ keysOf s.blamedFiles := lookupKey_mem_keys hlook
      have hcnd : causes.Nodup := hc _ (mem_of_lookupKey hlook)
      have hk' : KeysNodup
          { s with blamedFiles := setEntry q (causes.erase file) s.blamedFiles } := by
        show (keysOf (setEntry q (causes.erase file) s.blamedFiles)).Nodup
        rwa [keysOf_setEntry_of_mem hkmem]
      have hc' : CausesNodup
          { s with blamedFiles := setEntry q (causes.erase file) s.blamedFiles } := by
        intro e he
        rcases mem_setEntry (by
          show (e.1, e.2) ∈ setEntry q (causes.erase file) s.blamedFiles
          simpa using he) with ⟨_, hv⟩ | ⟨hmem, _⟩
        · show e.2.Nodup
          rw [hv]
          exact hcnd.erase _
        · exact hc _ hmem
      have hnotin : file ∉ causes.erase file := fun hmem =>
        absurd (hcnd.mem_erase_iff.mp hmem).1 (by simp)
      by_cases hf : file ∈ causes
      · rw [if_pos hf] at h
        by_cases hnil : causes.erase file = []
        · rw [if_pos hnil] at h
          cases hr : recurse q
              { s with blamedFiles := setEntry q (causes.erase file) s.blamedFiles } with
          | none =>
            rw [hr] at h
            exact absurd h (by simp)
          | some s'' =>
            rw [hr] at h
            obtain ⟨hk'', hc''⟩ := hrecNodups _ _ _ hr ⟨hk', hc'⟩
            refine ih _ _ hk'' hc'' (fun r cs hmem hfm => ?_) h
            obtain ⟨cs₀, hmem₀, hsub₀⟩ :=
              (hrecShr _ _ _ hr).2.2.2 r cs hmem
            have hfm₀ : file ∈ cs₀ := hsub₀ _ hfm
            rcases mem_setEntry hmem₀ with ⟨rfl, rfl⟩ | ⟨hmemS, hne⟩
            · rw [hnil] at hfm₀
              exact absurd hfm₀ (List.not_mem_nil _)
            · rcases List.mem_cons.mp (hcover r cs₀ hmemS hfm₀) with rfl | hr'
              · exact absurd rfl hne
              · exact hr'
        · rw [if_neg hnil] at h
          refine ih _ _ hk' hc' (fun r cs hmem hfm => ?_) h
          rcases mem_setEntry hmem with ⟨rfl, rfl⟩ | ⟨hmemS, hne⟩
          · exact absurd hfm hnotin
          · rcases List.mem_cons.mp (hcover r cs hmemS hfm) with rfl | hr'
            · exact absurd rfl hne
            · exact hr'
      · rw [if_neg hf] at h
        refine ih s t hk hc (fun r cs hmem hfm => ?_) h
        rcases List.mem_cons.mp (hcover r cs hmem hfm) with rfl | hr'
        · have := lookupKey_of_mem_of_nodup hk hmem
          rw [hlook] at this
          have hcs : cs = causes := by
            simpa using this.symm
          exact absurd (hcs ▸ hfm) hf
        · exact hr'

theorem unwatchO_clears :
    ∀ (fuel : Nat) (file : String) (s t : WatcherState),
      KeysNodup s → CausesNodup s → unwatchO fuel file s = some t →
      ∀ q cs, (q, cs) ∈ t.blamedFiles → file ∉ cs := by
  intro fuel
  induction fuel with
  | zero => intro file s t _ _ h; simp [unwatchO] at h
  | succ n ih =>
    intro file s t hk hc h
    simp only [unwatchO] at h
    have hk1 : KeysNodup (removeFilePaths file s) :=
      hk.sublist keysOf_eraseEntry_sublist
    have hc1 : CausesNodup (removeFilePaths file s) := by
      intro e he
      exact hc _ (mem_eraseEntry.mp (by
        show (e.1, e.2) ∈ eraseEntry file s.blamedFiles
        simpa using he)).1
    exact unwatchLoop_clears
      (fun q s' t' hr => unwatchO_shrinks n q s' t' hr)
      (fun q s' t' hr => unwatchO_nodups n q s' t' hr)
      _ _ _ hk1 hc1
      (fun q cs hmem _ => List.mem_map.mpr ⟨(q, cs), hmem, rfl⟩) h

/-- Every entry of the blame map has a nonempty cause set. -/
def BlamedNonempty (s : WatcherState) : Prop :=
  ∀ e ∈ s.blamedFiles, e.2 ≠ []

theorem unwatchLoop_nonempty
    {recurse : String → WatcherState → Option WatcherState} {file : String}
    (hrec : ∀ q s' t',
      (∀ e ∈ s'.blamedFiles, e.1 ≠ q → e.2 ≠ []) →
      recurse q s' = some t' → BlamedNonempty t') :
    ∀ (ks : List String) (s t : WatcherState), BlamedNonempty s →
      unwatchLoop recurse file ks s = some t → BlamedNonempty t := by
  intro ks
  induction ks with
  | nil =>
    intro s t hb h
    simp only [unwatchLoop, Option.some.injEq] at h
    exact h ▸ hb
  | cons q rest ih =>
    intro s t hb h
    cases hlook : lookupKey q s.blamedFiles with
    | none =>
      simp only [unwatchLoop, hlook] at h
      exact ih s t hb h
    | some causes =>
      simp only [unwatchLoop, hlook] at h
      by_cases hf : file ∈ causes
      · rw [if_pos hf] at h
        by_cases hnil : causes.erase file = []
        · rw [if_pos hnil] at h
          cases hr : recurse q
              { s with blamedFiles := setEntry q (causes.erase file) s.blamedFiles } with
          | none =>
            rw [hr] at h
            exact absurd h (by simp)
          | some s'' =>
            rw [hr] at h
            have hb'' : BlamedNonempty s'' := by
              refine hrec _ _ _ (fun e he hne => ?_) hr
              rcases mem_setEntry (by
                show (e.1, e.2) ∈ setEntry q (causes.erase file) s.blamedFiles
                simpa using he) with ⟨hq, _⟩ | ⟨hmem, _⟩
              · exact absurd hq hne
              · exact hb _ hmem
            exact ih _ _ hb'' h
        · rw [if_neg hnil] at h
          have hb' : BlamedNonempty
              { s with blamedFiles := setEntry q (causes.erase file) s.blamedFiles } := by
            intro e he
            rcases mem_setEntry (by
              show (e.1, e.2) ∈ setEntry q (causes.erase file) s.blamedFiles
              simpa using he) with ⟨_, hv⟩ | ⟨hmem, _⟩
            · show e.2 ≠ []
              rw [hv]
              exact hnil
            · exact hb _ hmem
          exact ih _ _ hb' h
      · rw [if_neg hf] at h
        exact ih s t hb h

theorem unwatchO_nonempty :
    ∀ (fuel : Nat) (file : String) (s t : WatcherState),
      (∀ e ∈ s.blamedFiles, e.1 ≠ file → e.2 ≠ []) →
      unwatchO fuel file s = some t → BlamedNonempty t := by
  intro fuel
  induction fuel with
  | zero => intro file s t _ h; simp [unwatchO] at h
  | succ n ih =>
    intro file s t hb h
    simp only [unwatchO] at h
    have hb1 : BlamedNonempty (removeFilePaths file s) := by
      intro e he
      have hm := mem_eraseEntry.mp (by
        show (e.1, e.2) ∈ eraseEntry file s.blamedFiles
        simpa using he)
      exact hb _ hm.1 hm.2
    exact unwatchLoop_nonempty (fun q s' t' hne hr => ih q s' t' hne hr)
      _ _ _ hb1 h

/-! ## Computation lemmas for `addFile` and `add` -/

theorem addFile_watchedFiles {ex : String → Bool} {file : String}
    {cause : Option (List String)} {critical : Bool} {s : WatcherState} :
    (addFile ex file cause critical s).watchedFiles =
      insertSet file s.watchedFiles := by
  unfold addFile
  cases cause with
  | none =>
    cases hl : lookupKey file s.blamedFiles with
    | none =>
      simp only [hl]
      by_cases hcr : critical = true <;>
        simp [hcr, watchPathTop, watchPath_watchedFiles]
    | some causes =>
      simp only [hl]
      by_cases hcr : critical = true <;>
        simp [hcr, watchPathTop, watchPath_watchedFiles]
  | some cs =>
    cases hl : lookupKey file s.blamedFiles with
    | none =>
      simp only [hl]
      by_cases hcr : critical = true <;>
        simp [hcr, watchPathTop, watchPath_watchedFiles]
    | some causes =>
      simp only [hl]
      by_cases hcr : critical = true <;>
        simp [hcr, watchPathTop, watchPath_watchedFiles]

theorem addFile_criticalFiles {ex : String → Bool} {file : String}
    {cause : Option (List String)} {critical : Bool} {s : WatcherState} :
    (addFile ex file cause critical s).criticalFiles =
      if critical then insertSet file s.criticalFiles
      else s.criticalFiles := by
  unfold addFile
  cases cause with
  | none =>
    cases hl : lookupKey file s.blamedFiles with
    | none =>
      simp only [hl]
      by_cases hcr : critical = true <;>
        simp [hcr, watchPathTop, watchPath_criticalFiles]
    | some causes =>
      simp only [hl]
      by_cases hcr : critical = true <;>
        simp [hcr, watchPathTop, watchPath_criticalFiles]
  | some cs =>
    cases hl : lookupKey file s.blamedFiles with
    | none =>
      simp only [hl]
      by_cases hcr : critical = true <;>
        simp [hcr, watchPathTop, watchPath_criticalFiles]
    | some causes =>
      simp only [hl]
      by_cases hcr : critical = true <;>
        simp [hcr, watchPathTop, watchPath_criticalFiles]

theorem addFile_blamedFiles_cause_new {ex : String → Bool} {file : String}
    {cs : List String} {critical : Bool} {s : WatcherState}
    (hl : lookupKey file s.blamedFiles = none) :
    (addFile ex file (some cs) critical s).blamedFiles =
      setEntry file
        (cs.foldl (fun acc c => insertSet c acc)
          (if file ∈ s.watchedFiles then [file] else []))
        s.blamedFiles := by
  unfold addFile
  simp only [hl]
  by_cases hcr : critical = true <;>
    simp [hcr, watchPathTop, watchPath_blamedFiles]

theorem addFile_blamedFiles_cause_existing {ex : String → Bool}
    {file : String} {cs causes : List String} {critical : Bool}
    {s : WatcherState} (hl : lookupKey file s.blamedFiles = some causes) :
    (addFile ex file (some cs) critical s).blamedFiles =
      setEntry file (cs.foldl (fun acc c => insertSet c acc) causes)
        s.blamedFiles := by
  unfold addFile
  simp only [hl]
  by_cases hcr : critical = true <;>
    simp [hcr, watchPathTop, watchPath_blamedFiles]

theorem addFile_blamedFiles_no_cause_existing {ex : String → Bool}
    {file : String} {causes : List String} {critical : Bool}
    {s : WatcherState} (hl : lookupKey file s.blamedFiles = some causes) :
    (addFile ex file none critical s).blamedFiles =
      setEntry file (insertSet file causes) s.blamedFiles := by
  unfold addFile
  simp only [hl]
  by_cases hcr : critical = true <;>
    simp [hcr, watchPathTop, watchPath_blamedFiles]

theorem addFile_blamedFiles_no_cause_new {ex : String → Bool}
    {file : String} {critical : Bool} {s : WatcherState}
    (hl : lookupKey file s.blamedFiles = none) :
    (addFile ex file none critical s).blamedFiles = s.blamedFiles := by
  unfold addFile
  simp only [hl]
  by_cases hcr : critical = true <;>
    simp [hcr, watchPathTop, watchPath_blamedFiles]

theorem foldl_preserves_proj {α : Type} (proj : WatcherState → α)
    {f : WatcherState → String → WatcherState}
    (hf : ∀ s p, proj (f s p) = proj s) :
    ∀ (l : List String) (s : WatcherState), proj (l.foldl f s) = proj s := by
  intro l
  induction l with
  | nil => intro s; rfl
  | cons p rest ih =>
    intro s
    rw [List.foldl_cons, ih, hf]

theorem add_watchedFiles {ex : String → Bool}
    {scanBase : String → String × String × Bool}
    {compile : String → AddOptions → String → Bool} {root : String}
    {patterns : List String} {options : AddOptions} {s : WatcherState} :
    (add ex scanBase compile root patterns options s).watchedFiles =
      s.watchedFiles := by
  unfold add
  exact foldl_preserves_proj WatcherState.watchedFiles
    (fun s p => by simp [watchPathTop, watchPath_watchedFiles]) _ _

theorem add_blamedFiles {ex : String → Bool}
    {scanBase : String → String × String × Bool}
    {compile : String → AddOptions → String → Bool} {root : String}
    {patterns : List String} {options : AddOptions} {s : WatcherState} :
    (add ex scanBase compile root patterns options s).blamedFiles =
      s.blamedFiles := by
  unfold add
  exact foldl_preserves_proj WatcherState.blamedFiles
    (fun s p => by simp [watchPathTop, watchPath_blamedFiles]) _ _

theorem add_criticalFiles {ex : String → Bool}
    {scanBase : String → String × String × Bool}
    {compile : String → AddOptions → String → Bool} {root : String}
    {patterns : List String} {options : AddOptions} {s : WatcherState} :
    (add ex scanBase compile root patterns options s).criticalFiles =
      s.criticalFiles := by
  unfold add
  exact foldl_preserves_proj WatcherState.criticalFiles
    (fun s p => by simp [watchPathTop, watchPath_criticalFiles]) _ _

/-! ## Support lemmas for the reset decision and the change-log fold -/

theorem registerInputs_ok {stat : String → StatKind} {ex : String → Bool}
    {scanBase : String → String × String × Bool}
    {compile : String → AddOptions → String → Bool} {root : String} :
    ∀ (inputs : List String) (w : WatcherState),
      (∀ i ∈ inputs, ¬ strStartsWith i "!" = true) →
      ∃ w', registerInputs stat ex scanBase compile root inputs w =
          Except.ok w' ∧
        ∀ p ∈ w'.watchedFiles,
          p ∈ w.watchedFiles ∨ ∃ i ∈ inputs, p = pathResolve root i := by
  intro inputs
  induction inputs with
  | nil =>
    intro w _
    exact ⟨w, rfl, fun p hp => Or.inl hp⟩
  | cons i rest ih =>
    intro w hnb
    have hib : ¬ strStartsWith i "!" = true := hnb i (List.mem_cons_self _ _)
    have hrest : ∀ j ∈ rest, ¬ strStartsWith j "!" = true :=
      fun j hj => hnb j (List.mem_cons_of_mem _ hj)
    -- one step of the fold
    cases hstat : stat (pathResolve root i) with
    | file =>
      obtain ⟨w', hok, hsub⟩ := ih (addFile ex (pathResolve root i) none false w) hrest
      refine ⟨w', ?_, ?_⟩
      · simp only [registerInputs, List.foldlM_cons, registerInput,
          if_neg hib, hstat]
        simpa [registerInputs] using hok
      · intro p hp
        rcases hsub p hp with hmem | ⟨j, hj, rfl⟩
        · rw [addFile_watchedFiles] at hmem
          rcases mem_insertSet.mp hmem with rfl | hmem'
          · exact Or.inr ⟨i, List.mem_cons_self _ _, rfl⟩
          · exact Or.inl hmem'
        · exact Or.inr ⟨j, List.mem_cons_of_mem _ hj, rfl⟩
    | directory =>
      obtain ⟨w', hok, hsub⟩ :=
        ih (add ex scanBase compile root [pathJoin i "**/*"] {} w) hrest
      refine ⟨w', ?_, ?_⟩
      · simp only [registerInputs, List.foldlM_cons, registerInput,
          if_neg hib, hstat]
        simpa [registerInputs] using hok
      · intro p hp
        rcases hsub p hp with hmem | ⟨j, hj, rfl⟩
        · rw [add_watchedFiles] at hmem
          exact Or.inl hmem
        · exact Or.inr ⟨j, List.mem_cons_of_mem _ hj, rfl⟩
    | missing =>
      obtain ⟨w', hok, hsub⟩ :=
        ih (add ex scanBase compile root [i] {} w) hrest
      refine ⟨w', ?_, ?_⟩
      · simp only [registerInputs, List.foldlM_cons, registerInput,
          if_neg hib, hstat]
        simpa [registerInputs] using hok
      · intro p hp
        rcases hsub p hp with hmem | ⟨j, hj, rfl⟩
        · rw [add_watchedFiles] at hmem
          exact Or.inl hmem
        · exact Or.inr ⟨j, List.mem_cons_of_mem _ hj, rfl⟩
    | other =>
      obtain ⟨w', hok, hsub⟩ :=
        ih (add ex scanBase compile root [i] {} w) hrest
      refine ⟨w', ?_, ?_⟩
      · simp only [registerInputs, List.foldlM_cons, registerInput,
          if_neg hib, hstat]
        simpa [registerInputs] using hok
      · intro p hp
        rcases hsub p hp with hmem | ⟨j, hj, rfl⟩
        · rw [add_watchedFiles] at hmem
          exact Or.inl hmem
        · exact Or.inr ⟨j, List.mem_cons_of_mem _ hj, rfl⟩

theorem foldl_if_eq_foldl_filter {β : Type}
    (g : WatcherState → β → WatcherState) (P : β → Prop) [DecidablePred P] :
    ∀ (l : List β) (w : WatcherState),
      l.foldl (fun acc e => if P e then g acc e else acc) w =
        (l.filter fun e => decide (P e)).foldl g w := by
  intro l
  induction l with
  | nil => intro w; rfl
  | cons e rest ih =>
    intro w
    by_cases hp : P e
    · rw [List.foldl_cons, if_pos hp, List.filter_cons,
        if_pos (by simpa using hp), List.foldl_cons]
      exact ih _
    · rw [List.foldl_cons, if_neg hp, List.filter_cons,
        if_neg (by simpa using hp)]
      exact ih w

theorem anyCritical_iff {w : WatcherState}
    {log : List (String × FileChange)} :
    (keysOf log).any (fun k => isFileCritical w k) = true ↔
      ∃ k ∈ keysOf log, k ∈ w.criticalFiles := by
  rw [List.any_eq_true]
  constructor
  · rintro ⟨k, hk, hc⟩
    exact ⟨k, hk, by simpa [isFileCritical] using hc⟩
  · rintro ⟨k, hk, hc⟩
    exact ⟨k, hk, by simpa [isFileCritical] using hc⟩

theorem foldl_applyChange_fresh {ev : ChangeEvent} {rel : String → String} :
    ∀ (C : List String) (log : List (String × FileChange)),
      C.Nodup → (∀ k ∈ C, lookupKey k log = none) →
      C.foldl (fun log k => applyChange log k ev (rel k)) log =
        log ++ C.map (fun k => (k, ⟨ev, rel k⟩)) := by
  intro C
  induction C with
  | nil => intro log _ _; simp
  | cons k rest ih =>
    intro log hnd hfresh
    have hk : lookupKey k log = none := hfresh k (List.mem_cons_self _ _)
    have hstep : applyChange log k ev (rel k) = log ++ [(k, ⟨ev, rel k⟩)] := by
      simp only [applyChange, hk]
    have hfresh' : ∀ k' ∈ rest,
        lookupKey k' (log ++ [(k, (⟨ev, rel k⟩ : FileChange))]) = none := by
      intro k' hk'
      have hne : k' ≠ k := fun he =>
        (List.nodup_cons.mp hnd).1 (he ▸ hk')
      rw [lookupKey_append_single_ne hne]
      exact hfresh k' (List.mem_cons_of_mem _ hk')
    rw [List.foldl_cons, hstep, ih _ (List.nodup_cons.mp hnd).2 hfresh']
    simp

/-! ## Claim theorems -/

/-- Claim C10: the recursive cascade in `unwatch` terminates for every
registry state.  Each recursive `unwatch(q)` call is made only for a `q`
currently present in `blamedFiles` and deletes `q`'s entry before recursing
further, so the recursion depth is bounded by the size of `blamedFiles`:
running the cascade with fuel `|blamedFiles| + 1` (one unit per nesting
level) never exhausts the fuel. -/
theorem unwatch_cascade_terminates :
    ∀ (s : WatcherState) (file : String),
      (unwatchO (s.blamedFiles.length + 1) file s).isSome = true := by
  intro s file
  apply unwatchO_isSome
  have := length_eraseEntry_le (k := file) (m := s.blamedFiles)
  omega

/-- Claim C3: folding normalized watch events into the change log, for any
affected path: a `change` event never overwrites an existing entry (in
particular not an `add` or `unlink` one); `addDir` and `unlinkDir` are
recorded as `add` and `unlink`; and a later non-`change` event replaces the
recorded event, so repeated `add`/`unlink` keeps the last value. -/
theorem changeLog_fold_spec :
    (∀ (log : List (String × FileChange)) (k rel : String) (c : FileChange),
      lookupKey k log = some c →
        applyChange log k (normalizeEvent ChokidarEvent.change) rel = log) ∧
    (normalizeEvent ChokidarEvent.addDir = ChangeEvent.add ∧
      normalizeEvent ChokidarEvent.unlinkDir = ChangeEvent.unlink) ∧
    (∀ (log : List (String × FileChange)) (k rel : String) (e : ChangeEvent),
      e ≠ ChangeEvent.change →
        ∃ c, lookupKey k (applyChange log k e rel) = some c ∧ c.event = e) := by
  refine ⟨?_, ⟨rfl, rfl⟩, ?_⟩
  · intro log k rel c hc
    simp only [applyChange, normalizeEvent, hc]
    simp
  · intro log k rel e he
    cases hc : lookupKey k log with
    | none =>
      refine ⟨⟨e, rel⟩, ?_, rfl⟩
      simp only [applyChange, hc]
      rw [lookupKey_append_of_none hc]
      simp [lookupKey]
    | some c =>
      refine ⟨⟨e, c.file⟩, ?_, rfl⟩
      simp only [applyChange, hc, if_pos he]
      exact lookupKey_setEntry_self

/-- Witness for C3 at concrete inputs: a pending `add` entry survives a
`change` event, and an `unlink` replaces an `add`. -/
theorem changeLog_fold_spec_witness :
    applyChange [("/r/a", ⟨ChangeEvent.add, "a"⟩)] "/r/a"
        (normalizeEvent ChokidarEvent.change) "a" =
      [("/r/a", ⟨ChangeEvent.add, "a"⟩)] ∧
    ∃ c, lookupKey "/r/a"
        (applyChange [("/r/a", ⟨ChangeEvent.add, "a"⟩)] "/r/a"
          ChangeEvent.unlink "a") = some c ∧
      c.event = ChangeEvent.unlink :=
  ⟨changeLog_fold_spec.1 _ "/r/a" "a" ⟨ChangeEvent.add, "a"⟩ (by decide),
   changeLog_fold_spec.2.2 _ "/r/a" "a" ChangeEvent.unlink (by decide)⟩

/-- Claim C7: `write(p, d)` is content-skipping and idempotent.  If the
on-disk contents equal `d`, the call performs no filesystem mutation and
emits no `write` event; otherwise it creates the parent directories, writes
the file, and emits the `write` event strictly after the write; running the
call twice in a row is equivalent to running it once. -/
theorem write_idempotent_spec (root file data : String) (fsys : FsImage) :
    (lookupKey (pathResolve root file) fsys.files = some data →
      write root file data fsys = (fsys, [])) ∧
    (lookupKey (pathResolve root file) fsys.files ≠ some data →
      (write root file data fsys).2 =
        [WriteAction.mkdir (pathDirname (pathResolve root file)),
         WriteAction.writeFile (pathResolve root file) data,
         WriteAction.emitWrite (pathResolve root file)]) ∧
    (lookupKey (pathResolve root file) (write root file data fsys).1.files =
      some data) ∧
    (write root file data (write root file data fsys).1 =
      ((write root file data fsys).1, [])) := by
  have hskip : ∀ (g : FsImage),
      lookupKey (pathResolve root file) g.files = some data →
        write root file data g = (g, []) := by
    intro g hg
    simp [write, hg]
  have hlook : lookupKey (pathResolve root file)
      (write root file data fsys).1.files = some data := by
    cases hc : lookupKey (pathResolve root file) fsys.files with
    | none => simp [write, hc, lookupKey_setEntry_self]
    | some content =>
      by_cases he : content = data
      · subst he
        simp [write, hc]
      · simp [write, hc, he, lookupKey_setEntry_self]
  refine ⟨hskip fsys, ?_, hlook, hskip _ hlook⟩
  intro hne
  cases hc : lookupKey (pathResolve root file) fsys.files with
  | none => simp [write, hc]
  | some content =>
    have he : content ≠ data := fun h => hne (h ▸ hc)
    simp [write, hc, he]

/-- Witness for C7 at concrete inputs: writing `"A"` over different content
performs the three actions, and the repeated write does nothing. -/
theorem write_idempotent_spec_witness :
    (write "/r" "a.txt" "A" ⟨[("/r/a.txt", "B")], ["/r"]⟩).2 =
      [WriteAction.mkdir (pathDirname (pathResolve "/r" "a.txt")),
       WriteAction.writeFile (pathResolve "/r" "a.txt") "A",
       WriteAction.emitWrite (pathResolve "/r" "a.txt")] ∧
    write "/r" "a.txt" "A"
        (write "/r" "a.txt" "A" ⟨[("/r/a.txt", "B")], ["/r"]⟩).1 =
      ((write "/r" "a.txt" "A" ⟨[("/r/a.txt", "B")], ["/r"]⟩).1, []) :=
  ⟨(write_idempotent_spec "/r" "a.txt" "A" ⟨[("/r/a.txt", "B")], ["/r"]⟩).2.1
      (by decide),
   (write_idempotent_spec "/r" "a.txt" "A" ⟨[("/r/a.txt", "B")], ["/r"]⟩).2.2.2⟩

/-- Counterexample to claim C8 as stated: the existence watcher's
`isRelevantChange` forwards an `add` event for a path that is registered in
none of the three existence sets (and is not watched), whereas the claim
says an event is forwarded only if the path is registered in the
appropriate existence set. -/
theorem existence_relevance_counterexample :
    isRelevantChange freshWatcher ChokidarEvent.add "a" = true ∧
    "a" ∉ freshWatcher.existencePaths ∧
    "a" ∉ freshWatcher.fileExistencePaths ∧
    "a" ∉ freshWatcher.dirExistencePaths ∧
    "a" ∉ freshWatcher.watchedFiles := by
  refine ⟨rfl, ?_, ?_, ?_, ?_⟩ <;> simp [freshWatcher]

/-- Claim C8, amended: every raw `change` event is discarded; any other
event on `p` is forwarded iff `p` is not in `watchedFiles` and `p` is not
registered solely under the opposite type: an `add`/`unlink` is suppressed
exactly when `p` is in the directory-typed set but in neither the untyped
nor the file-typed set, and an `addDir`/`unlinkDir` is suppressed exactly
when `p` is in the file-typed set but in neither the untyped nor the
directory-typed set; in particular events on paths registered in no set are
forwarded. -/
theorem existence_relevance_amended (s : WatcherState)
    (event : ChokidarEvent) (file : String) :
    isRelevantChange s ChokidarEvent.change file = false ∧
    (isRelevantChange s event file = true ↔
      (event ≠ ChokidarEvent.change ∧ file ∉ s.watchedFiles ∧
        (file ∈ s.existencePaths ∨
          ((event = ChokidarEvent.add ∨ event = ChokidarEvent.unlink) ∧
            (file ∈ s.fileExistencePaths ∨ file ∉ s.dirExistencePaths)) ∨
          ((event = ChokidarEvent.addDir ∨ event = ChokidarEvent.unlinkDir) ∧
            (file ∈ s.dirExistencePaths ∨ file ∉ s.fileExistencePaths))))) := by
  constructor
  · simp [isRelevantChange]
  · cases event <;>
      · simp only [isRelevantChange]
        split_ifs <;> simp_all

/-- Counterexample to claim C2 as stated: a watched file `p` whose nonempty
cause set contains `p` itself (a state `addFile` really produces when a
file watched without a cause is re-watched with one) does get a change-log
entry keyed by `p`, contradicting "produces no entry keyed by p". -/
theorem blame_resolution_counterexample :
    lookupKey "p" [("p", ["p", "c"])] = some ["p", "c"] ∧
    (["p", "c"] : List String) ≠ [] ∧
    (lookupKey "p"
      (onWatchEvent "/r" ["p"] [("p", ["p", "c"])] ChokidarEvent.change "p"
        [])).isSome = true := by
  refine ⟨rfl, by decide, by decide⟩

/-- Claim C2, amended: for a watched file `p` whose `blamedFiles` entry has
a nonempty cause set `C`, a filesystem event on `p` produces exactly one
change-log entry per cause, keyed by the cause, and an entry keyed by `p`
appears exactly when `p` is among its own causes; for a watched file with
no `blamedFiles` entry, the event produces a single entry keyed by `p`. -/
theorem blame_resolution_amended :
    (∀ (root : String) (watched : List String)
        (blamed : List (String × List String)) (p : String)
        (event : ChokidarEvent) (C : List String),
      p ∈ watched → lookupKey p blamed = some C → C.Nodup → C ≠ [] →
        onWatchEvent root watched blamed event p [] =
          C.map (fun k => (k, ⟨normalizeEvent event, pathRelative root k⟩)) ∧
        (p ∈ keysOf (onWatchEvent root watched blamed event p []) ↔
          p ∈ C)) ∧
    (∀ (root : String) (watched : List String)
        (blamed : List (String × List String)) (p : String)
        (event : ChokidarEvent),
      p ∈ watched → lookupKey p blamed = none →
        onWatchEvent root watched blamed event p [] =
          [(p, ⟨normalizeEvent event, pathRelative root p⟩)]) := by
  have hguard : ∀ (watched : List String) (p : String)
      (event : ChokidarEvent), p ∈ watched →
      ¬(event = ChokidarEvent.change ∧ p ∉ watched) :=
    fun watched p event hw h => h.2 hw
  constructor
  · intro root watched blamed p event C hw hC hnd hne
    have hmain : onWatchEvent root watched blamed event p [] =
        C.map (fun k => (k, ⟨normalizeEvent event, pathRelative root k⟩)) := by
      unfold onWatchEvent
      rw [if_neg (hguard watched p event hw), hC]
      simp only [Option.getD_some]
      rw [foldl_applyChange_fresh C [] hnd (fun k _ => rfl)]
      simp
    refine ⟨hmain, ?_⟩
    rw [hmain]
    simp [keysOf, List.map_map, Function.comp]
  · intro root watched blamed p event hw hC
    unfold onWatchEvent
    rw [if_neg (hguard watched p event hw), hC]
    simp only [Option.getD_none, List.foldl_cons, List.foldl_nil]
    simp [applyChange, lookupKey]

/-- Witness for the amended C2: a watched file blamed on `{p, c}` yields
exactly the two entries keyed `p` and `c`, and an unblamed watched file
yields the single entry keyed by itself. -/
theorem blame_resolution_amended_witness :
    onWatchEvent "/r" ["p"] [("p", ["p", "c"])] ChokidarEvent.change "p" [] =
      [("p", ⟨ChangeEvent.change, pathRelative "/r" "p"⟩),
       ("c", ⟨ChangeEvent.change, pathRelative "/r" "c"⟩)] ∧
    onWatchEvent "/r" ["/r/a"] [] ChokidarEvent.change "/r/a" [] =
      [("/r/a", ⟨ChangeEvent.change, pathRelative "/r" "/r/a"⟩)] :=
  ⟨(blame_resolution_amended.1 "/r" ["p"] [("p", ["p", "c"])] "p"
      ChokidarEvent.change ["p", "c"] (by decide) (by decide) (by decide)
      (by decide)).1,
   blame_resolution_amended.2 "/r" ["/r/a"] [] "/r/a" ChokidarEvent.change
     (by decide) (by decide)⟩

/-- Claim C4: `addFile(p, options)` puts `p` into `watchedFiles`; leaves
`p` in `criticalFiles` exactly when `options.critical` is set or `p` was
already critical; with a cause and no previous blame entry it creates a
cause set seeded with `p` exactly when `p` was already watched and then
adds every given cause; and without a cause but with an existing blame
entry it adds `p` to its own cause set. -/
theorem addFile_spec (ex : String → Bool) (file : String)
    (cause : Option (List String)) (critical : Bool) (s : WatcherState) :
    (file ∈ (addFile ex file cause critical s).watchedFiles) ∧
    (file ∈ (addFile ex file cause critical s).criticalFiles ↔
      critical = true ∨ file ∈ s.criticalFiles) ∧
    (∀ cs, cause = some cs → lookupKey file s.blamedFiles = none →
      ∃ S, lookupKey file (addFile ex file cause critical s).blamedFiles =
          some S ∧
        (∀ c ∈ cs, c ∈ S) ∧
        (file ∈ S ↔ file ∈ s.watchedFiles ∨ file ∈ cs) ∧
        (∀ x ∈ S, x ∈ cs ∨ (x = file ∧ file ∈ s.watchedFiles))) ∧
    (∀ causes, cause = none → lookupKey file s.blamedFiles = some causes →
      ∃ S, lookupKey file (addFile ex file cause critical s).blamedFiles =
          some S ∧
        file ∈ S ∧ ∀ x, x ∈ S ↔ x ∈ causes ∨ x = file) := by
  refine ⟨?_, ?_, ?_, ?_⟩
  · rw [addFile_watchedFiles]
    exact self_mem_insertSet
  · rw [addFile_criticalFiles]
    by_cases hcr : critical = true
    · rw [if_pos hcr]
      exact ⟨fun _ => Or.inl hcr, fun _ => self_mem_insertSet⟩
    · rw [if_neg hcr]
      constructor
      · exact fun h => Or.inr h
      · rintro (h | h)
        · exact absurd h hcr
        · exact h
  · rintro cs rfl hl
    rw [addFile_blamedFiles_cause_new hl]
    refine ⟨_, lookupKey_setEntry_self, ?_, ?_, ?_⟩
    · intro c hc
      exact mem_foldl_insertSet.mpr (Or.inr hc)
    · rw [mem_foldl_insertSet]
      by_cases hw : file ∈ s.watchedFiles
      · simp [hw]
      · simp [hw]
    · intro x hx
      rcases mem_foldl_insertSet.mp hx with hseed | hcs
      · by_cases hw : file ∈ s.watchedFiles
        · simp only [if_pos hw, List.mem_singleton] at hseed
          exact Or.inr ⟨hseed, hw⟩
        · simp [if_neg hw] at hseed
      · exact Or.inl hcs
  · rintro causes rfl hl
    rw [addFile_blamedFiles_no_cause_existing hl]
    refine ⟨_, lookupKey_setEntry_self, self_mem_insertSet, ?_⟩
    intro x
    rw [mem_insertSet]
    tauto

/-- Witness for C4 at concrete inputs: watching `"p"` (already watched,
unblamed) with cause `"c"` and the critical flag. -/
theorem addFile_spec_witness :
    ("p" ∈ (addFile (fun _ => true) "p" (some ["c"]) true
        ⟨["p"], [], [], [], [], [], [], [], []⟩).watchedFiles) ∧
    (∃ S, lookupKey "p" (addFile (fun _ => true) "p" (some ["c"]) true
        ⟨["p"], [], [], [], [], [], [], [], []⟩).blamedFiles = some S ∧
      (∀ c ∈ ["c"], c ∈ S) ∧
      ("p" ∈ S ↔
        "p" ∈ (⟨["p"], [], [], [], [], [], [], [], []⟩ :
          WatcherState).watchedFiles ∨ "p" ∈ ["c"]) ∧
      (∀ x ∈ S, x ∈ ["c"] ∨ (x = "p" ∧
        "p" ∈ (⟨["p"], [], [], [], [], [], [], [], []⟩ :
          WatcherState).watchedFiles))) :=
  ⟨(addFile_spec (fun _ => true) "p" (some ["c"]) true
      ⟨["p"], [], [], [], [], [], [], [], []⟩).1,
   (addFile_spec (fun _ => true) "p" (some ["c"]) true
      ⟨["p"], [], [], [], [], [], [], [], []⟩).2.2.1 ["c"] rfl (by decide)⟩

/-- Claim C6: a raw `change` event on a path not in `watchedFiles` is
suppressed whenever every matcher applying to the path does not accept
change events (`ignoreChangeEvents = true`): the watcher's `handleChange`
emits no `watch` event for it and leaves the state unchanged, and the
change-log fold also drops `change` events for unwatched files, so a
content modification of a file that was only scanned never reaches the
change log and never triggers a rerun by itself. -/
theorem scanned_change_suppressed (sz : String → Nat) (root : String)
    (s : WatcherState) (blamed : List (String × List String))
    (changes : List (String × FileChange)) (p : String)
    (h1 : p ∉ s.watchedFiles)
    (h2 : ∀ m ∈ s.matchers, hasMatch p m = true →
      m.ignoreChangeEvents = true) :
    handleChange sz ChokidarEvent.change p s = (s, none) ∧
    onWatchEvent root s.watchedFiles blamed ChokidarEvent.change p changes =
      changes := by
  have hig : shouldIgnoreChange s p = true := by
    unfold shouldIgnoreChange
    rw [if_neg h1, List.all_eq_true]
    intro m hm
    by_cases hmatch : hasMatch p m = true
    · simp [h2 m hm hmatch]
    · simp [hmatch]
  constructor
  · simp [handleChange, hig]
  · unfold onWatchEvent
    rw [if_pos ⟨rfl, h1⟩]

/-- Witness for C6: one matcher applies to the path but ignores change
events, and the path is unwatched, so the event is dropped at both
layers. -/
theorem scanned_change_suppressed_witness :
    handleChange (fun _ => 0) ChokidarEvent.change "/r/x"
        ⟨[], [], [], [], [],
         [⟨"/r", "*", 2, false, true, fun _ => true⟩], [], [], []⟩ =
      (⟨[], [], [], [], [],
        [⟨"/r", "*", 2, false, true, fun _ => true⟩], [], [], []⟩, none) ∧
    onWatchEvent "/r"
        (WatcherState.watchedFiles
          ⟨[], [], [], [], [],
           [⟨"/r", "*", 2, false, true, fun _ => true⟩], [], [], []⟩)
        [] ChokidarEvent.change "/r/x" [] = [] :=
  scanned_change_suppressed (fun _ => 0) "/r"
    ⟨[], [], [], [], [], [⟨"/r", "*", 2, false, true, fun _ => true⟩],
     [], [], []⟩ [] [] "/r/x"
    (by simp)
    (by
      intro m hm _
      rcases List.mem_singleton.mp hm with rfl
      rfl)

/-- Counterexample to claim C5's closing invariant as stated: an `addFile`
with a truthy but empty cause array (`watch(p, {cause: []})` type-checks
in the source) on a not-yet-watched file creates a `blamedFiles` entry
whose cause set is empty. -/
theorem blame_nonempty_counterexample :
    lookupKey "p" (runOps (fun _ => true)
        [RegistryOp.addFile "p" (some []) false] freshWatcher).blamedFiles =
      some [] := by
  decide

/-- An operation whose cause option, when supplied, carries at least one
cause. -/
def CauseNonempty : RegistryOp → Prop
  | RegistryOp.addFile _ (some cs) _ => cs ≠ []
  | _ => True

instance : DecidablePred CauseNonempty := fun op =>
  match op with
  | RegistryOp.addFile _ none _ => isTrue trivial
  | RegistryOp.addFile _ (some cs) _ =>
    inferInstanceAs (Decidable (cs ≠ []))
  | RegistryOp.unwatch _ => isTrue trivial

theorem applyOp_nonempty {ex : String → Bool} {s : WatcherState}
    {op : RegistryOp} (hop : CauseNonempty op) (hb : BlamedNonempty s) :
    BlamedNonempty (applyOp ex s op) := by
  cases op with
  | unwatch f =>
    show BlamedNonempty (unwatch f s)
    have heq := @unwatch_eq_unwatchO f s
    exact unwatchO_nonempty _ f s _ (fun e he _ => hb e he) heq
  | addFile f c cr =>
    show BlamedNonempty (addFile ex f c cr s)
    intro e he
    cases c with
    | none =>
      cases hl : lookupKey f s.blamedFiles with
      | none =>
        rw [addFile_blamedFiles_no_cause_new hl] at he
        exact hb e he
      | some causes =>
        rw [addFile_blamedFiles_no_cause_existing hl] at he
        rcases mem_setEntry (by
          show (e.1, e.2) ∈ setEntry f (insertSet f causes) s.blamedFiles
          simpa using he) with ⟨_, hv⟩ | ⟨hmem, _⟩
        · show e.2 ≠ []
          rw [hv]
          exact insertSet_ne_nil
        · exact hb _ hmem
    | some cs =>
      have hcs : cs ≠ [] := hop
      cases hl : lookupKey f s.blamedFiles with
      | none =>
        rw [addFile_blamedFiles_cause_new hl] at he
        rcases mem_setEntry (by
          show (e.1, e.2) ∈ setEntry f
            (cs.foldl (fun acc c => insertSet c acc)
              (if f ∈ s.watchedFiles then [f] else [])) s.blamedFiles
          simpa using he) with ⟨_, hv⟩ | ⟨hmem, _⟩
        · show e.2 ≠ []
          rw [hv]
          exact foldl_insertSet_ne_nil_of_ne_nil hcs
        · exact hb _ hmem
      | some causes =>
        rw [addFile_blamedFiles_cause_existing hl] at he
        rcases mem_setEntry (by
          show (e.1, e.2) ∈ setEntry f
            (cs.foldl (fun acc c => insertSet c acc) causes) s.blamedFiles
          simpa using he) with ⟨_, hv⟩ | ⟨hmem, _⟩
        · show e.2 ≠ []
          rw [hv]
          exact foldl_insertSet_ne_nil_of_ne_nil hcs
        · exact hb _ hmem

/-- Claim C5, amended: `unwatch(p)` removes `p` from `watchedFiles`,
`blamedFiles` and `criticalFiles`, and removes `p` from the cause set of
every other blamed file, recursively unwatching any file whose cause set
empties; and after any sequence of `addFile` and `unwatch` operations in
which every supplied cause list is nonempty, every entry remaining in
`blamedFiles` has a nonempty cause set.  (An `addFile` whose truthy cause
option carries zero causes can create an empty entry, which the
counterexample exhibits.) -/
theorem unwatch_forgets_amended :
    (∀ (s : WatcherState) (p : String),
      s.watchedFiles.Nodup → s.criticalFiles.Nodup → KeysNodup s →
      CausesNodup s →
        p ∉ (unwatch p s).watchedFiles ∧
        lookupKey p (unwatch p s).blamedFiles = none ∧
        p ∉ (unwatch p s).criticalFiles ∧
        (∀ q cs, (q, cs) ∈ (unwatch p s).blamedFiles → p ∉ cs)) ∧
    (∀ (ex : String → Bool) (ops : List RegistryOp),
      (∀ op ∈ ops, CauseNonempty op) →
      BlamedNonempty (runOps ex ops freshWatcher)) := by
  constructor
  · intro s p hw hc hk hcn
    have heq := @unwatch_eq_unwatchO p s
    have heq' := heq
    simp only [unwatchO] at heq'
    have hshr : Shrinks (unwatch p s) (removeFilePaths p s) :=
      unwatchLoop_shrinks
        (fun q s' t' hr => unwatchO_shrinks s.blamedFiles.length q s' t' hr)
        _ _ _ heq'
    refine ⟨?_, ?_, ?_, ?_⟩
    · intro hmem
      have hmem1 := hshr.1 p hmem
      have : p ∈ s.watchedFiles.erase p := hmem1
      exact absurd ((hw.mem_erase_iff).mp this).1 (by simp)
    · apply lookupKey_eq_none.mpr
      intro hmem
      exact keysOf_eraseEntry_not_mem (hshr.2.2.1 p hmem)
    · intro hmem
      have hmem1 := hshr.2.1 p hmem
      have : p ∈ s.criticalFiles.erase p := hmem1
      exact absurd ((hc.mem_erase_iff).mp this).1 (by simp)
    · intro q cs hmem
      exact unwatchO_clears _ p s _ hk hcn heq q cs hmem
  · intro ex ops hops
    have hgen : ∀ (l : List RegistryOp) (s : WatcherState),
        (∀ op ∈ l, CauseNonempty op) → BlamedNonempty s →
        BlamedNonempty (runOps ex l s) := by
      intro l
      induction l with
      | nil => intro s _ hb; exact hb
      | cons op rest ih =>
        intro s hl hb
        show BlamedNonempty (runOps ex rest (applyOp ex s op))
        exact ih _ (fun o ho => hl o (List.mem_cons_of_mem _ ho))
          (applyOp_nonempty (hl op (List.mem_cons_self _ _)) hb)
    exact hgen ops freshWatcher hops (fun e he => absurd he (by simp [freshWatcher]))

/-- Witness for the amended C5: unwatching the lone cause `"c"` forgets the
blamed file `"q"` entirely, and a short `addFile`/`unwatch` run keeps every
cause set nonempty. -/
theorem unwatch_forgets_amended_witness :
    ("c" ∉ (unwatch "c"
        ⟨["c", "q"], [("q", ["c"])], [], [], [], [], [], [], []⟩).watchedFiles ∧
      lookupKey "c" (unwatch "c"
        ⟨["c", "q"], [("q", ["c"])], [], [], [], [], [], [],
         []⟩).blamedFiles = none ∧
      "c" ∉ (unwatch "c"
        ⟨["c", "q"], [("q", ["c"])], [], [], [], [], [], [],
         []⟩).criticalFiles ∧
      (∀ q cs, (q, cs) ∈ (unwatch "c"
        ⟨["c", "q"], [("q", ["c"])], [], [], [], [], [], [],
         []⟩).blamedFiles → "c" ∉ cs)) ∧
    BlamedNonempty (runOps (fun _ => true)
      [RegistryOp.addFile "a" (some ["b"]) false, RegistryOp.unwatch "b"]
      freshWatcher) :=
  ⟨unwatch_forgets_amended.1
      ⟨["c", "q"], [("q", ["c"])], [], [], [], [], [], [], []⟩ "c"
      (by decide) (by decide) (by unfold KeysNodup; decide)
      (by unfold CausesNodup; decide),
   unwatch_forgets_amended.2 (fun _ => true)
     [RegistryOp.addFile "a" (some ["b"]) false, RegistryOp.unwatch "b"]
     (by decide)⟩

/-- Claim C1: before a non-first run (a folded change log is supplied), the
reset is hard iff some change-log key is a critical file.  A hard reset
returns the empty store and a registry rebuilt from a fresh watcher by
re-registering the initial `watch`-option inputs, so `watchedFiles` holds
only (resolved) initial-option paths; a soft reset keeps the store and
unwatches exactly the changed files whose folded event is not `add`. -/
theorem reset_hard_soft_spec {σ : Type}
    (stat : String → StatKind) (ex : String → Bool)
    (scanBase : String → String × String × Bool)
    (compile : String → AddOptions → String → Bool)
    (root : String) (inputs : List String) (emptySt store : σ)
    (w : WatcherState) (log : List (String × FileChange))
    (hnb : ∀ i ∈ inputs, ¬ strStartsWith i "!" = true) :
    ((∃ k ∈ keysOf log, k ∈ w.criticalFiles) →
      ∃ w', registerInputs stat ex scanBase compile root inputs freshWatcher =
          Except.ok w' ∧
        reset stat ex scanBase compile root (WatchOpt.paths inputs) emptySt w
          store (some log) = Except.ok (w', emptySt) ∧
        ∀ p ∈ w'.watchedFiles, ∃ i ∈ inputs, p = pathResolve root i) ∧
    ((¬ ∃ k ∈ keysOf log, k ∈ w.criticalFiles) →
      reset stat ex scanBase compile root (WatchOpt.paths inputs) emptySt w
        store (some log) =
        Except.ok
          ((log.filter fun e =>
              decide (e.2.event ≠ ChangeEvent.add)).foldl
            (fun acc e => unwatch (pathResolve root e.2.file) acc) w,
           store)) := by
  constructor
  · intro hcrit
    obtain ⟨w', hok, hsub⟩ := registerInputs_ok inputs freshWatcher hnb
    refine ⟨w', hok, ?_, ?_⟩
    · simp only [reset]
      rw [if_pos (anyCritical_iff.mpr hcrit), hok]
    · intro p hp
      rcases hsub p hp with hmem | hex
      · exact absurd hmem (by simp [freshWatcher])
      · exact hex
  · intro hcrit
    simp only [reset]
    rw [if_neg (fun h => hcrit (anyCritical_iff.mp h))]
    rw [foldl_if_eq_foldl_filter
      (fun acc e => unwatch (pathResolve root e.2.file) acc)
      (fun e => e.2.event ≠ ChangeEvent.add) log w]

/-- Witness for C1: a critical change log forces the hard branch rebuilding
from the initial input `"a.txt"` (an existing file), and a non-critical log
takes the soft branch preserving the store. -/
theorem reset_hard_soft_spec_witness :
    (∃ w', registerInputs
          (fun p => if p = "/r/a.txt" then StatKind.file else StatKind.missing)
          (fun _ => true) (fun p => (p, "", false)) (fun _ _ _ => false)
          "/r" ["a.txt"] freshWatcher = Except.ok w' ∧
      reset (fun p => if p = "/r/a.txt" then StatKind.file else StatKind.missing)
          (fun _ => true) (fun p => (p, "", false)) (fun _ _ _ => false)
          "/r" (WatchOpt.paths ["a.txt"]) (0 : Nat)
          ⟨["/r/c.txt"], [], ["/r/c.txt"], [], [], [], [], [], []⟩ 7
          (some [("/r/c.txt", ⟨ChangeEvent.change, "c.txt"⟩)]) =
        Except.ok (w', 0) ∧
      ∀ p ∈ w'.watchedFiles, ∃ i ∈ ["a.txt"], p = pathResolve "/r" i) ∧
    reset (fun p => if p = "/r/a.txt" then StatKind.file else StatKind.missing)
        (fun _ => true) (fun p => (p, "", false)) (fun _ _ _ => false)
        "/r" (WatchOpt.paths ["a.txt"]) (0 : Nat)
        ⟨["/r/c.txt"], [], [], [], [], [], [], [], []⟩ 7
        (some [("/r/c.txt", ⟨ChangeEvent.change, "c.txt"⟩)]) =
      Except.ok
        (([("/r/c.txt", (⟨ChangeEvent.change, "c.txt"⟩ : FileChange))].filter
            fun e => decide (e.2.event ≠ ChangeEvent.add)).foldl
          (fun acc e => unwatch (pathResolve "/r" e.2.file) acc)
          ⟨["/r/c.txt"], [], [], [], [], [], [], [], []⟩,
         7) :=
  ⟨(reset_hard_soft_spec
      (fun p => if p = "/r/a.txt" then StatKind.file else StatKind.missing)
      (fun _ => true) (fun p => (p, "", false)) (fun _ _ _ => false)
      "/r" ["a.txt"] 0 7
      ⟨["/r/c.txt"], [], ["/r/c.txt"], [], [], [], [], [], []⟩
      [("/r/c.txt", ⟨ChangeEvent.change, "c.txt"⟩)]
      (by decide)).1
    ⟨"/r/c.txt", by decide, by decide⟩,
   (reset_hard_soft_spec
      (fun p => if p = "/r/a.txt" then StatKind.file else StatKind.missing)
      (fun _ => true) (fun p => (p, "", false)) (fun _ _ _ => false)
      "/r" ["a.txt"] 0 7
      ⟨["/r/c.txt"], [], [], [], [], [], [], [], []⟩
      [("/r/c.txt", ⟨ChangeEvent.change, "c.txt"⟩)]
      (by decide)).2
    (by decide)⟩

end Jumpgen
